import Mathlib

/-!
# shell.c : a small shell with `set $name=value` variables

A shallow embedding of `src/shell.c` and the properties of its tokenizer, its
`set` parser, its variable substitution and its dispatch loop.

Conventions of the embedding.

* A C string is the list of its characters before the terminating NUL; one
  `Char` stands for one C `char`.  A `char *` is a `Slot`: `none` is `NULL`.
* A C array is a list whose length is the capacity of the array.  An access
  outside the list, a read of a cell that was never written and a dereference
  of `NULL` have no defined behaviour in C; the embedding stops there with a
  `Fault`.
* A slot of the token array holds the string its pointer pointed to when the
  slot was written.  (The tokens of a line point into the line buffer; the
  program reads a slot only in the round that wrote it.)
* `printf` output is returned as the list of the printed strings, and a call of
  `fork_off` as the argument vector handed to `execvp`.
-/

namespace Shell

/-! ## Data model -/

/-- The `#define MAX_LENGTH 50` of the source. -/
def MAX_LENGTH : Nat := 50

/-- The `#define ARG_LENGTH 10` of the source. -/
def ARG_LENGTH : Nat := 10

/-- The characters of a NUL-terminated string, terminator excluded. -/
abbrev Token := List Char

/-- A `char *`: `none` is `NULL`, `some t` points to the string `t`. -/
abbrev Slot := Option Token

/-- The `struct ARGUMENT` of the source: a variable name and its value. -/
structure Argument where
  var_name : Token
  var_value : Token
deriving DecidableEq, Repr

/-- The ways in which an execution leaves defined behaviour; `fuel` is the loop
bound of the embedding of `tokenize_input`, which no call reaches
(`tokenize_input_fuel`). -/
inductive Fault where
  | out_of_bounds
  | indeterminate
  | null_deref
  | fuel
deriving DecidableEq, Repr

deriving instance DecidableEq for Except

/-- One `char` of a local buffer: never written, the terminator, or a character. -/
inductive Cell where
  | indet
  | nul
  | chr (c : Char)
deriving DecidableEq, Repr

/-- The literal `"set"`. -/
def SET : Token := ['s', 'e', 't']

/-- The notice printed for a rejected command. -/
def INVALID_NOTICE : String := "Invalid command\n>"

/-- The hint printed for a lone `set`. -/
def USAGE_HINT : String := "Usage: set $variablename=value\n>"

/-- The write `buf[i] = x`. -/
def store {α : Type} (buf : List α) (i : Nat) (x : α) : Except Fault (List α) :=
  if i < buf.length then .ok (buf.set i x) else .error .out_of_bounds

/-- The read `buf[i]`. -/
def load {α : Type} (buf : List α) (i : Nat) : Except Fault α :=
  match buf[i]? with
  | some x => .ok x
  | none => .error .out_of_bounds

/-- The call `strdup(buf)` on a local buffer: the characters up to the first terminator. -/
def strdup : List Cell → Except Fault Token
  | [] => .error .out_of_bounds
  | .indet :: _ => .error .indeterminate
  | .nul :: _ => .ok []
  | .chr c :: rest =>
    match strdup rest with
    | .ok t => .ok (c :: t)
    | .error e => .error e

/-! ## process_set_command (shell.c, lines 129-203) -/

/-- The locals of `process_set_command` that the character loop updates. -/
structure SetLocals where
  variable_buf : List Cell
  value_buf : List Cell
  variable_index : Nat
  value_index : Nat
  append_variable : Bool
  append_value : Bool
deriving DecidableEq, Repr

/-- The locals on entry of the loop: both buffers of `MAX_LENGTH` cells unwritten. -/
def SetLocals.entry : SetLocals :=
  { variable_buf := List.replicate MAX_LENGTH Cell.indet
    value_buf := List.replicate MAX_LENGTH Cell.indet
    variable_index := 0
    value_index := 0
    append_variable := true
    append_value := false }

/-- One iteration of the loop of lines 156-175, on the character `c = args[1][col]`. -/
def set_loop_body (c : Char) (col : Nat) (st : SetLocals) : Except Fault SetLocals :=
  -- if(append_variable == true){ variable[variable_index] = args[1][col]; variable_index ++; }
  (if st.append_variable then
      (store st.variable_buf st.variable_index (Cell.chr c)).map fun b =>
        { st with variable_buf := b, variable_index := st.variable_index + 1 }
    else .ok st) >>= fun st1 =>
  -- if(append_value == true){ value[value_index] = args[1][col]; value_index ++; }
  (if st1.append_value then
      (store st1.value_buf st1.value_index (Cell.chr c)).map fun b =>
        { st1 with value_buf := b, value_index := st1.value_index + 1 }
    else .ok st1) >>= fun st2 =>
  -- if(args[1][col] == '='){ variable[col] = '\0'; append_variable = false; append_value = true; }
  if c = '=' then
    (store st2.variable_buf col Cell.nul).map fun b =>
      { st2 with variable_buf := b, append_variable := false, append_value := true }
  else .ok st2

/-- The loop `for(col = 0; col < length; col ++)` over the characters still to read. -/
def set_loop : List Char → Nat → SetLocals → Except Fault SetLocals
  | [], _, st => .ok st
  | c :: cs, col, st => set_loop_body c col st >>= fun st1 => set_loop cs (col + 1) st1

/-- The body of `process_set_command` once `args[0]`, `args[1]` are strings and
`args[2]` is `NULL` (lines 143-195). -/
def set_two_tokens (t0 t1 : Token) (arguments : List Argument) (s_index : Nat) :
    Except Fault (List Argument × Nat × List String) :=
  if t0 = SET ∧ t1.head? = some '$' then
    -- int length = strlen(args[1]); if(length == 1){ invalid = true; }
    let invalid0 : Bool := decide (t1.length = 1)
    set_loop t1 0 SetLocals.entry >>= fun st =>
    -- value[value_index] = '\0';
    store st.value_buf st.value_index Cell.nul >>= fun value_buf =>
    -- if(append_value == false){ invalid = true; }
    let invalid : Bool := invalid0 || !st.append_value
    if invalid = false then
      strdup st.variable_buf >>= fun name =>
      strdup value_buf >>= fun value =>
      store arguments s_index { var_name := name, var_value := value } >>= fun arguments1 =>
      .ok (arguments1, s_index + 1, [])
    else .ok (arguments, s_index, [INVALID_NOTICE])
  else .ok (arguments, s_index, [INVALID_NOTICE])

/-- The function `process_set_command(args, arguments, s_index)`: the table after
the call, the returned `s_index`, and what was printed. -/
def process_set_command (args : List Slot) (arguments : List Argument) (s_index : Nat) :
    Except Fault (List Argument × Nat × List String) :=
  -- if(args[0] != NULL && args[1] != NULL && args[2] == NULL), evaluated left to right
  load args 0 >>= fun a0 =>
  match a0 with
  | none => .ok (arguments, s_index, [INVALID_NOTICE])
  | some t0 =>
    load args 1 >>= fun a1 =>
    match a1 with
    | none => .ok (arguments, s_index, [INVALID_NOTICE])
    | some t1 =>
      load args 2 >>= fun a2 =>
      match a2 with
      | some _ => .ok (arguments, s_index, [INVALID_NOTICE])
      | none => set_two_tokens t0 t1 arguments s_index

/-! ## process_variable_replacement (shell.c, lines 72-113) -/

/-- The inner loop `for(i = 0; i < s_index; i ++)` of lines 94-101, with `n`
iterations left, for `var`, the string `variable` of the source: `index` (unset
on entry of the function) and `to_replace`. -/
def search_loop (ptr : List Argument) (var : Token) :
    Nat → Nat → Option Nat → Bool → Except Fault (Option Nat × Bool)
  | 0, _, index, to_replace => .ok (index, to_replace)
  | n + 1, i, index, to_replace =>
    load ptr i >>= fun entry =>
    -- if(strcmp(ptr[i].var_name, variable) == 0){ index = i; to_replace = true; }
    if entry.var_name = var then search_loop ptr var n (i + 1) (some i) true
    else search_loop ptr var n (i + 1) index to_replace

/-- The outer loop `for(row = 0; row < arg_count; row ++)` of lines 87-108, with
`n` iterations left. -/
def replace_loop (ptr : List Argument) (s_index : Nat) :
    Nat → Nat → List Slot → Option Nat → Bool → Except Fault (List Slot)
  | 0, _, args, _, _ => .ok args
  | n + 1, row, args, index, to_replace =>
    load args row >>= fun a =>
    match a with
    | none => .error .null_deref
    | some t =>
      -- if(args[row][0] == '$')
      if t.head? = some '$' then
        -- variable = strdup(args[row]); arg_index = row;
        search_loop ptr t s_index 0 index to_replace >>= fun found =>
        if found.2 = true then
          match found.1 with
          | none => .error .indeterminate
          | some k =>
            -- args[arg_index] = strdup(ptr[index].var_value); to_replace = false;
            load ptr k >>= fun entry =>
            store args row (some entry.var_value) >>= fun args1 =>
            replace_loop ptr s_index n (row + 1) args1 found.1 false
        else replace_loop ptr s_index n (row + 1) args found.1 found.2
      else replace_loop ptr s_index n (row + 1) args index to_replace

/-- The function `process_variable_replacement(args, arg_count, ptr, s_index)`:
the token array after the call. -/
def process_variable_replacement (args : List Slot) (arg_count : Nat)
    (ptr : List Argument) (s_index : Nat) : Except Fault (List Slot) :=
  load args 0 >>= fun a0 =>
  match a0 with
  | none => .ok args
  | some t0 =>
    if t0 ≠ SET then replace_loop ptr s_index arg_count 0 args none false
    else .ok args

/-! ## tokenize_input (shell.c, lines 217-246) -/

/-- The library call `strtok(p, " ")` scanning from the string `s` (the line on
the first call, the saved position on a later one): leading spaces are skipped;
at the end of the string the result is `NULL`; otherwise the token runs to the
next space, which is overwritten by a terminator, and the scan position is saved
behind it.  Returns the token and the saved rest. -/
def strtok (s : List Char) : Slot × List Char :=
  let s1 := s.dropWhile (fun c => c == ' ')
  if s1 = [] then (none, [])
  else (some (s1.takeWhile (fun c => c != ' ')), (s1.dropWhile (fun c => c != ' ')).drop 1)

/-- The loop `while (args[count] != NULL)` of lines 231-237, bounded by `fuel`. -/
def tokenize_loop : Nat → List Slot → Nat → Nat → List Char →
    Except Fault (List Slot × Nat × Nat)
  | 0, _, _, _, _ => .error .fuel
  | fuel + 1, args, count, arg_count, saved =>
    load args count >>= fun a =>
    match a with
    | none => .ok (args, count, arg_count)
    | some _ =>
      -- count++; args[count] = strtok(NULL, " "); arg_count++;
      store args (count + 1) (strtok saved).1 >>= fun args1 =>
      tokenize_loop fuel args1 (count + 1) (arg_count + 1) (strtok saved).2

/-- The function `tokenize_input(args, input)`: the token array after the call
and the returned `arg_count`. -/
def tokenize_input (args : List Slot) (input : List Char) : Except Fault (List Slot × Nat) :=
  -- length = strlen(input); if(input[length-1] == '\n'){ input[length-1] = '\0'; }
  if input = [] then .error .out_of_bounds
  else
    let line := if input.getLast? = some '\n' then input.dropLast else input
    -- args[0] = strtok(input," ");
    store args 0 (strtok line).1 >>= fun args1 =>
    tokenize_loop (input.length + 1) args1 0 0 (strtok line).2 >>= fun r =>
    -- count++; args[count] = '\0';
    store r.1 (r.2.1 + 1) none >>= fun args2 =>
    .ok (args2, r.2.2)

/-! ## fork_off and the interactive loop of main (shell.c, lines 260-363) -/

/-- The argument vector `execvp` reads from `args`: the strings up to the first `NULL`. -/
def argv_of : List Slot → Except Fault (List Token)
  | [] => .error .out_of_bounds
  | none :: _ => .ok []
  | some t :: rest =>
    match argv_of rest with
    | .ok ts => .ok (t :: ts)
    | .error e => .error e

/-- The function `fork_off(args)`, seen from the shell: the argument vector the
child hands to `execvp(args[0], args)`.  What the child program does, and the
notice the child prints when `execvp` fails, are outside the embedding. -/
def fork_off (args : List Slot) : Except Fault (List Token) :=
  match args.head? with
  | some (some _) => argv_of args
  | _ => .error .null_deref

/-- What one dispatched command leaves behind: the token array, the table, the
table size, what the shell printed and the argument vector handed to the
executor, if it was invoked. -/
structure Dispatched where
  args : List Slot
  arguments : List Argument
  s_index : Nat
  printed : List String
  executed : Option (List Token)
deriving DecidableEq, Repr

/-- The body of the interactive loop after `tokenize_input` (lines 339-361). -/
def dispatch (args : List Slot) (arg_count : Nat) (arguments : List Argument) (s_index : Nat) :
    Except Fault Dispatched :=
  load args 0 >>= fun a0 =>
  match a0 with
  | none => .ok { args := args, arguments := arguments, s_index := s_index,
                  printed := [], executed := none }
  | some t0 =>
    load args 1 >>= fun a1 =>
    -- if(args[0] != NULL && args[1] == NULL){ if(strcmp(args[0], "set") == 0) printf(Usage) }
    let printed1 : List String := if a1 = none ∧ t0 = SET then [USAGE_HINT] else []
    -- if(args[0] != NULL && args[1] != NULL){ if(strcmp(args[0], "set") == 0) process_set_command }
    (if a1 ≠ none ∧ t0 = SET then process_set_command args arguments s_index
      else .ok (arguments, s_index, [])) >>= fun r =>
    -- if(args[0] != NULL){ if(strcmp(args[0], "set") != 0) process_variable_replacement }
    (if t0 ≠ SET then process_variable_replacement args arg_count r.1 r.2.1
      else .ok args) >>= fun args1 =>
    -- if(args[0] != '\0' && strcmp(args[0], "set") != 0){ fork_off(args); }
    load args1 0 >>= fun b0 =>
    match b0 with
    | none => .ok { args := args1, arguments := r.1, s_index := r.2.1,
                    printed := printed1 ++ r.2.2, executed := none }
    | some u0 =>
      if u0 ≠ SET then
        fork_off args1 >>= fun argv =>
        .ok { args := args1, arguments := r.1, s_index := r.2.1,
              printed := printed1 ++ r.2.2, executed := some argv }
      else .ok { args := args1, arguments := r.1, s_index := r.2.1,
                 printed := printed1 ++ r.2.2, executed := none }

/-- One round of the interactive loop (lines 332-363) on the line `input_user`
that `fgets` returned. -/
def interactive_step (args : List Slot) (arguments : List Argument) (s_index : Nat)
    (input_user : List Char) : Except Fault Dispatched :=
  -- printf(">"); arg_count = tokenize_input(args, input_user);
  tokenize_input args input_user >>= fun r =>
  dispatch r.1 r.2 arguments s_index >>= fun d =>
  .ok { d with printed := ">" :: d.printed }

/-! ## main (shell.c, lines 282-379) -/

/-- What the shell does for the outside, in order: a `printf` of the shell
itself and a call of `fork_off` with the argument vector it hands over. -/
inductive Event where
  | print (s : String)
  | exec (argv : List Token)
deriving DecidableEq, Repr

/-- The variables of `main` that live across the rounds of its loops: the token
array, the table and the table size. -/
structure MainState where
  args : List Slot
  arguments : List Argument
  s_index : Nat
deriving DecidableEq, Repr

/-- The banner printed when the init file was opened. -/
def PROCESSING_BANNER : String := "\n\nProcessing .shell_init\n\n\n"

/-- The message printed when the init file cannot be opened. -/
def UNABLE_BANNER : String := "\n\nUnable to open .shell_init\n\n\n"

/-- The message printed between the preload and the interactive loop. -/
def COMPLETED_BANNER : String := "\nCompleted executing commands. Control given to user."

/-- The loop `while(fgets(input_file, MAX_LENGTH, in) != NULL)` of lines 306-314,
over the lines that the successive calls of `fgets` return. -/
def preload_loop : List (List Char) → MainState → Except Fault (MainState × List Event)
  | [], st => .ok (st, [])
  | input_file :: more, st =>
    -- printf("preloading command: %s", input_file);
    -- arg_count = tokenize_input(args, input_file);
    tokenize_input st.args input_file >>= fun r =>
    -- s_index = process_set_command(args, arguments, s_index);
    process_set_command r.1 st.arguments st.s_index >>= fun q =>
    preload_loop more { args := r.1, arguments := q.1, s_index := q.2.1 } >>= fun z =>
    .ok (z.1, Event.print ("preloading command: " ++ String.mk input_file)
                :: (q.2.2.map Event.print ++ z.2))

/-- The loop `for(i = 0; i < s_index; i ++)` of lines 318-327, with `n`
iterations left: the token array after it and what it printed and executed. -/
def execute_loop (arguments : List Argument) :
    Nat → Nat → List Slot → Except Fault (List Slot × List Event)
  | 0, _, args => .ok (args, [])
  | n + 1, i, args =>
    -- printf("\n\nexecuted command: %s\n", arguments[i].var_name);
    load arguments i >>= fun entry =>
    -- args[0] = strdup(arguments[i].var_value); args[1] = '\0';
    store args 0 (some entry.var_value) >>= fun args1 =>
    store args1 1 none >>= fun args2 =>
    -- fork_off(args);
    fork_off args2 >>= fun argv =>
    execute_loop arguments n (i + 1) args2 >>= fun z =>
    .ok (z.1, Event.print ("\n\nexecuted command: " ++ String.mk entry.var_name ++ "\n")
                :: Event.exec argv :: z.2)

/-- The events of one round of the interactive loop: what it printed, then the
call of the executor if there was one. -/
def Dispatched.events (d : Dispatched) : List Event :=
  d.printed.map Event.print ++
    match d.executed with
    | some argv => [Event.exec argv]
    | none => []

/-- The loop `while(fgets(input_user, MAX_LENGTH, stdin) != NULL)` of lines
332-363, over the lines that the successive calls of `fgets` return. -/
def interactive_loop : List (List Char) → MainState → Except Fault (MainState × List Event)
  | [], st => .ok (st, [])
  | input_user :: more, st =>
    interactive_step st.args st.arguments st.s_index input_user >>= fun d =>
    interactive_loop more { args := d.args, arguments := d.arguments, s_index := d.s_index }
      >>= fun z =>
    .ok (z.1, d.events ++ z.2)

/-- The function `main`: its exit status and its events.  `init_file` is `none`
when `.shell_init.txt` cannot be opened, else the lines `fgets` reads from it;
`stdin_lines` are the lines `fgets` reads from the standard input; `args` and
`arguments` are the two arrays as `main` declares them, not yet written. -/
def main_run (init_file : Option (List (List Char))) (stdin_lines : List (List Char))
    (args : List Slot) (arguments : List Argument) : Except Fault (Nat × List Event) :=
  match init_file with
  | none =>
    -- printf("\n\nUnable to open .shell_init\n\n\n"); exit(EXIT_FAILURE);
    .ok (1, [Event.print UNABLE_BANNER])
  | some lines =>
    preload_loop lines { args := args, arguments := arguments, s_index := 0 } >>= fun p =>
    execute_loop p.1.arguments p.1.s_index 0 p.1.args >>= fun e =>
    interactive_loop stdin_lines
      { args := e.1, arguments := p.1.arguments, s_index := p.1.s_index } >>= fun z =>
    .ok (0, Event.print PROCESSING_BANNER :: (p.2 ++ e.2 ++
              Event.print COMPLETED_BANNER :: Event.print "\n>" :: z.2))

/-! ## Reference notions of the statements

None of these is part of the program: they say what the functions above are
compared with. -/

/-- The token array that holds the tokens `toks`, then `NULL`, then `rest`. -/
def argv_array (toks : List Token) (rest : List Slot) : List Slot :=
  toks.map some ++ none :: rest

/-- Reference: the characters of `arg` before its first `=` (all of `arg` when
it has none). -/
def name_part (arg : Token) : Token := arg.takeWhile (fun c => c != '=')

/-- Reference: the characters of `arg` after its first `=` (none when it has no
`=`). -/
def value_part (arg : Token) : Token := (arg.dropWhile (fun c => c != '=')).drop 1

/-- Reference: one iteration of the scan of lines 94-101, at entry `i`, on the
pair of `index` and `to_replace`. -/
def search_step (ptr : List Argument) (var : Token) (i : Nat) (r : Option Nat × Bool) :
    Except Fault (Option Nat × Bool) :=
  load ptr i >>= fun entry => if entry.var_name = var then .ok (some i, true) else .ok r

/-- Reference: the greatest index below `n` of an entry of `ptr` named `var`, if there is
one: the binding that the scan of lines 94-101 ends on. -/
def last_match (ptr : List Argument) (var : Token) : Nat → Option Nat
  | 0 => none
  | n + 1 =>
    match ptr[n]? with
    | some e => if e.var_name = var then some n else last_match ptr var n
    | none => last_match ptr var n

/-- Reference: last-wins lookup of one token, the value of the last binding
named like it when the token begins with `$` and is bound, the token otherwise. -/
def resolve (ptr : List Argument) (s_index : Nat) (t : Token) : Token :=
  if t.head? = some '$' then
    match last_match ptr t s_index with
    | some j =>
      match ptr[j]? with
      | some e => e.var_value
      | none => t
    | none => t
  else t

/-- Reference: the maximal runs of non-space characters of a line, in order. -/
def space_runs (s : List Char) : List Token :=
  (s.splitOn ' ').filter (fun t => !t.isEmpty)

/-- Reference: a line with its trailing newline, if it has one, removed. -/
def chomp (s : List Char) : List Char :=
  if s.getLast? = some '\n' then s.dropLast else s

/-- Reference: the binding a line of the init file stands for, if it is a valid
`set` line: two tokens, `set` and a token that begins with `$` and has a `=`. -/
def line_binding (l : List Char) : Option Argument :=
  match space_runs (chomp l) with
  | [t0, t1] =>
    if t0 = SET ∧ t1.head? = some '$' ∧ '=' ∈ t1 then
      some { var_name := name_part t1, var_value := value_part t1 }
    else none
  | _ => none

/-- Reference: the bindings of the valid `set` lines of a file, in file order. -/
def bindings_of (lines : List (List Char)) : List Argument :=
  lines.filterMap line_binding

/-- Reference: the token array `args` after a line was tokenized into it and
nothing else was written: the line's tokens, two `NULL`, the rest of `args`. -/
def tokenized (args : List Slot) (l : List Char) : List Slot :=
  argv_array (space_runs (chomp l)) (none :: args.drop ((space_runs (chomp l)).length + 2))

/-- Reference: the array `arguments` with the bindings `bs` written from
position `s` on. -/
def write_at (arguments : List Argument) (s : Nat) (bs : List Argument) : List Argument :=
  arguments.take s ++ bs ++ arguments.drop (s + bs.length)

/-- Reference: one step of reading the init file as the specification words it:
tokenize the line, then hand the tokens to `process_set_command`, nothing else. -/
def preload_step (st : MainState) (l : List Char) : Except Fault MainState :=
  tokenize_input st.args l >>= fun r =>
  process_set_command r.1 st.arguments st.s_index >>= fun q =>
  .ok { args := r.1, arguments := q.1, s_index := q.2.1 }

/-- Reference: the argument vectors of the executor calls among some events, in order. -/
def execs (events : List Event) : List (List Token) :=
  events.filterMap fun e =>
    match e with
    | Event.exec argv => some argv
    | Event.print _ => none

/-- The tables the program can hold: the array as `main` declares it, with
`s_index = 0`, and what a call of `process_set_command`, the only writer of the
table, makes of such a table when it returns. -/
inductive Reachable : List Argument → Nat → Prop where
  | start (arguments : List Argument) : Reachable arguments 0
  | call (args : List Slot) (arguments arguments1 : List Argument) (s_index s_index1 : Nat)
      (out : List String) :
      Reachable arguments s_index →
      process_set_command args arguments s_index = .ok (arguments1, s_index1, out) →
      Reachable arguments1 s_index1

/-! ## Auxiliary facts: memory accesses -/

theorem store_ok {α : Type} (buf : List α) (i : Nat) (x : α) (h : i < buf.length) :
    store buf i x = .ok (buf.set i x) := by
  simp [store, h]

theorem store_err {α : Type} (buf : List α) (i : Nat) (x : α) (h : buf.length ≤ i) :
    store buf i x = .error .out_of_bounds := by
  simp [store, Nat.not_lt.mpr h]

theorem load_ok {α : Type} (buf : List α) (i : Nat) (x : α) (h : buf[i]? = some x) :
    load buf i = .ok x := by
  simp [load, h]

theorem strdup_terminated (a : List Char) (rest : List Cell) :
    strdup (a.map Cell.chr ++ Cell.nul :: rest) = .ok a := by
  induction a with
  | nil => simp [strdup]
  | cons c cs ih => simp [strdup, ih]

theorem take_set_succ {α : Type} (V : List α) (i : Nat) (x : α) (h : i < V.length) :
    (V.set i x).take (i + 1) = V.take i ++ [x] := by
  rw [List.set_eq_take_append_cons_drop, if_pos h]
  rw [List.take_append_eq_append_take]
  simp [List.take_take, Nat.min_eq_left (Nat.le_of_lt h), List.length_take]

theorem drop_set_succ {α : Type} (V : List α) (i j : Nat) (x : α) (h : i < j) :
    (V.set i x).drop j = V.drop j := by
  apply List.ext_getElem?
  intro n
  simp [List.getElem?_drop, List.getElem?_set]
  intro h1
  omega

theorem take_set_ge {α : Type} (V : List α) (i j : Nat) (x : α) (h : j ≤ i) :
    (V.set i x).take j = V.take j := by
  apply List.ext_getElem?
  intro n
  simp only [List.getElem?_take, List.getElem?_set]
  split
  · rw [if_neg (by omega)]
  · rfl

/-! ## Auxiliary facts: the character loop of process_set_command -/

theorem set_loop_body_value (c : Char) (col : Nat) (B V : List Cell) (k vi : Nat)
    (hV : vi < V.length) (hB : col < B.length) :
    set_loop_body c col ⟨B, V, k, vi, false, true⟩
      = .ok ⟨if c = '=' then B.set col Cell.nul else B, V.set vi (Cell.chr c), k, vi + 1,
              false, true⟩ := by
  by_cases hc : c = '=' <;>
    simp [set_loop_body, store, hV, hB, hc, Except.map, bind, Except.bind]

theorem set_loop_body_name (c : Char) (col : Nat) (B V : List Cell) (hB : col < B.length) :
    set_loop_body c col ⟨B, V, col, 0, true, false⟩
      = if c = '=' then .ok ⟨B.set col Cell.nul, V, col + 1, 0, false, true⟩
        else .ok ⟨B.set col (Cell.chr c), V, col + 1, 0, true, false⟩ := by
  by_cases hc : c = '=' <;>
    simp [set_loop_body, store, hB, hc, Except.map, bind, Except.bind]

theorem set_loop_value (cs : List Char) : ∀ (col : Nat) (B V : List Cell) (k vi : Nat),
    vi + cs.length ≤ V.length → col + cs.length ≤ B.length →
    ∃ B', set_loop cs col ⟨B, V, k, vi, false, true⟩
        = .ok ⟨B', V.take vi ++ cs.map Cell.chr ++ V.drop (vi + cs.length), k,
                vi + cs.length, false, true⟩
      ∧ B'.length = B.length ∧ B'.take col = B.take col := by
  induction cs with
  | nil =>
    intro col B V k vi _ _
    exact ⟨B, by simp [set_loop], rfl, rfl⟩
  | cons c cs ih =>
    intro col B V k vi hV hB
    simp only [List.length_cons] at hV hB
    have hvi : vi < V.length := by omega
    have hcol : col < B.length := by omega
    have hlen : (if c = '=' then B.set col Cell.nul else B).length = B.length := by
      split <;> simp
    obtain ⟨B', h1, h2, h3⟩ := ih (col + 1) (if c = '=' then B.set col Cell.nul else B)
      (V.set vi (Cell.chr c)) k (vi + 1) (by simp; omega) (by omega)
    refine ⟨B', ?_, ?_, ?_⟩
    · simp only [set_loop, set_loop_body_value c col B V k vi hvi hcol, bind, Except.bind]
      rw [h1, take_set_succ V vi _ hvi, drop_set_succ V vi _ _ (by omega)]
      simp [Nat.add_assoc, Nat.add_comm 1]
    · rw [h2]; exact hlen
    · have := congrArg (List.take col) h3
      simp only [List.take_take, Nat.min_eq_left (Nat.le_succ col)] at this
      rw [this]
      split
      · exact take_set_ge B col col _ (Nat.le_refl _)
      · rfl

theorem set_loop_name_only (cs : List Char) : ∀ (col : Nat) (B V : List Cell),
    '=' ∉ cs → col + cs.length ≤ B.length →
    ∃ B', set_loop cs col ⟨B, V, col, 0, true, false⟩
        = .ok ⟨B', V, col + cs.length, 0, true, false⟩ := by
  induction cs with
  | nil =>
    intro col B V _ _
    exact ⟨B, by simp [set_loop]⟩
  | cons c cs ih =>
    intro col B V hne hB
    simp only [List.length_cons] at hB
    have hc : c ≠ '=' := fun h => hne (by simp [h])
    have hcs : '=' ∉ cs := fun h => hne (by simp [h])
    obtain ⟨B', h1⟩ := ih (col + 1) (B.set col (Cell.chr c)) V hcs (by simp; omega)
    refine ⟨B', ?_⟩
    simp only [set_loop, set_loop_body_name c col B V (by omega), hc, if_false, bind, Except.bind]
    rw [h1]
    simp [Nat.add_assoc, Nat.add_comm 1]

theorem set_loop_name (a b : List Char) : ∀ (col : Nat) (B V : List Cell),
    '=' ∉ a → col + (a.length + 1 + b.length) ≤ B.length → b.length ≤ V.length →
    ∃ B', set_loop (a ++ '=' :: b) col ⟨B, V, col, 0, true, false⟩
        = .ok ⟨B', b.map Cell.chr ++ V.drop b.length, col + a.length + 1, b.length,
                false, true⟩
      ∧ B'.take (col + a.length + 1) = B.take col ++ a.map Cell.chr ++ [Cell.nul] := by
  induction a with
  | nil =>
    intro col B V _ hB hV
    simp only [List.length_nil] at hB
    obtain ⟨B', h1, _, h3⟩ := set_loop_value b (col + 1) (B.set col Cell.nul) V (col + 1) 0
      (by omega) (by simp; omega)
    refine ⟨B', ?_, ?_⟩
    · simp only [List.nil_append, set_loop, set_loop_body_name '=' col B V (by omega), if_true,
        bind, Except.bind]
      rw [h1]
      simp
    · simp only [List.length_nil, Nat.add_zero, List.map_nil, List.append_nil]
      rw [h3, take_set_succ B col _ (by omega)]
  | cons c cs ih =>
    intro col B V hne hB hV
    simp only [List.length_cons] at hB
    have hc : c ≠ '=' := fun h => hne (by simp [h])
    have hcs : '=' ∉ cs := fun h => hne (by simp [h])
    obtain ⟨B', h1, h3⟩ := ih (col + 1) (B.set col (Cell.chr c)) V hcs (by simp; omega) hV
    refine ⟨B', ?_, ?_⟩
    · simp only [List.cons_append, set_loop, set_loop_body_name c col B V (by omega), hc,
        if_false, bind, Except.bind, List.append_eq]
      rw [h1]
      simp [Nat.add_assoc, Nat.add_comm 1]
    · have e : col + (c :: cs).length + 1 = col + 1 + cs.length + 1 := by
        simp only [List.length_cons]; omega
      rw [e, h3, take_set_succ B col _ (by omega)]
      simp

theorem split_at_eq (arg : Token) (h : '=' ∈ arg) :
    arg = name_part arg ++ '=' :: value_part arg := by
  induction arg with
  | nil => simp at h
  | cons c cs ih =>
    by_cases hc : c = '='
    · simp [name_part, value_part, hc]
    · have hcs : '=' ∈ cs := by
        rcases List.mem_cons.mp h with h1 | h1
        · exact absurd h1.symm hc
        · exact h1
      have := ih hcs
      simp only [name_part, value_part] at this ⊢
      simp only [List.takeWhile_cons, List.dropWhile_cons, bne_iff_ne, ne_eq, hc,
        not_false_eq_true, if_true, List.cons_append]
      rw [← this]

theorem name_part_no_eq (arg : Token) : '=' ∉ name_part arg := by
  intro h
  have := List.mem_takeWhile_imp h
  simp at this

theorem name_part_of_not_mem (arg : Token) (h : '=' ∉ arg) : name_part arg = arg := by
  simp only [name_part, List.takeWhile_eq_self_iff]
  intro c hc
  simp only [bne_iff_ne, ne_eq]
  intro e
  exact h (e ▸ hc)

theorem name_part_append (a b : List Char) (h : '=' ∉ a) :
    name_part (a ++ '=' :: b) = a := by
  simp only [name_part]
  rw [List.takeWhile_append_of_pos]
  · simp
  · intro c hc
    simp only [bne_iff_ne, ne_eq]
    intro e
    exact h (e ▸ hc)

theorem value_part_append (a b : List Char) (h : '=' ∉ a) :
    value_part (a ++ '=' :: b) = b := by
  simp only [value_part]
  rw [List.dropWhile_append_of_pos]
  · simp
  · intro c hc
    simp only [bne_iff_ne, ne_eq]
    intro e
    exact h (e ▸ hc)

theorem name_part_head (arg : Token) (c : Char) (h : arg.head? = some c) (hc : c ≠ '=') :
    (name_part arg).head? = some c := by
  cases arg with
  | nil => simp at h
  | cons d ds =>
    simp only [List.head?_cons, Option.some.injEq] at h
    subst h
    simp [name_part, List.takeWhile_cons, hc]

/-- The closed form of lines 143-195: a two-token command is accepted exactly
when it is `set` followed by a token that begins with `$` and has a `=`; the
binding stored is the split of that token at its first `=`. -/
theorem set_two_tokens_eq (t0 t1 : Token) (arguments : List Argument) (s_index : Nat)
    (hlen : t1.length < MAX_LENGTH) :
    set_two_tokens t0 t1 arguments s_index
      = if t0 = SET ∧ t1.head? = some '$' ∧ '=' ∈ t1 then
          store arguments s_index ⟨name_part t1, value_part t1⟩ >>= fun a =>
            .ok (a, s_index + 1, [])
        else .ok (arguments, s_index, [INVALID_NOTICE]) := by
  by_cases h0 : t0 = SET ∧ t1.head? = some '$'
  · by_cases he : '=' ∈ t1
    · rw [if_pos ⟨h0.1, h0.2, he⟩]
      have hsplit := split_at_eq t1 he
      have hno := name_part_no_eq t1
      generalize name_part t1 = a at hsplit hno
      generalize value_part t1 = b at hsplit
      subst hsplit
      simp only [List.length_append, List.length_cons] at hlen
      have ha : a ≠ [] := by
        intro e
        subst e
        have := h0.2
        simp at this
      have ha1 : 0 < a.length := List.length_pos.mpr ha
      obtain ⟨B', h1, h3⟩ := set_loop_name a b 0 (List.replicate MAX_LENGTH Cell.indet)
        (List.replicate MAX_LENGTH Cell.indet) hno (by simp; omega) (by simp; omega)
      have hB : B' = a.map Cell.chr ++ Cell.nul :: B'.drop (a.length + 1) := by
        conv_lhs => rw [← List.take_append_drop (a.length + 1) B']
        simp only [Nat.zero_add, List.take_zero, List.nil_append] at h3
        rw [h3]
        simp
      have hV : store (b.map Cell.chr ++ (List.replicate MAX_LENGTH Cell.indet).drop b.length)
          b.length Cell.nul
          = .ok (b.map Cell.chr ++ Cell.nul :: List.replicate (MAX_LENGTH - b.length - 1)
              Cell.indet) := by
        rw [store_ok _ _ _ (by simp; omega)]
        rw [List.set_append_right _ _ (by simp)]
        simp only [List.length_map, Nat.sub_self, List.drop_replicate]
        have : MAX_LENGTH - b.length = (MAX_LENGTH - b.length - 1) + 1 := by omega
        rw [this, List.replicate_succ, List.set_cons_zero]
        simp
      have hl : ¬ ((a ++ '=' :: b).length = 1) := by
        simp only [List.length_append, List.length_cons]; omega
      simp only [set_two_tokens, h0, and_self, if_true, SetLocals.entry, bind, Except.bind]
      simp only [Nat.zero_add] at h1
      rw [h1]
      simp only [hV, hl, decide_False, Bool.not_true, Bool.or_self, if_true]
      rw [hB, strdup_terminated, strdup_terminated]
    · rw [if_neg (fun h => he h.2.2)]
      obtain ⟨B', h1⟩ := set_loop_name_only t1 0 (List.replicate MAX_LENGTH Cell.indet)
        (List.replicate MAX_LENGTH Cell.indet) he (by simp; omega)
      simp only [set_two_tokens, h0, and_self, if_true, SetLocals.entry, bind, Except.bind]
      rw [h1]
      simp [store, MAX_LENGTH]
  · rw [if_neg (fun h => h0 ⟨h.1, h.2.1⟩)]
    simp [set_two_tokens, h0]

/-! The same loop, read from a run that ended without a fault. -/

theorem set_loop_body_value_of_ok (c : Char) (col : Nat) (B V : List Cell) (k vi : Nat)
    (st1 : SetLocals) (h : set_loop_body c col ⟨B, V, k, vi, false, true⟩ = .ok st1) :
    vi < V.length ∧
      st1 = ⟨if c = '=' then B.set col Cell.nul else B, V.set vi (Cell.chr c), k, vi + 1,
              false, true⟩ := by
  by_cases hV : vi < V.length
  · by_cases hc : c = '='
    · by_cases hB : col < B.length
      · rw [set_loop_body_value c col B V k vi hV hB] at h
        exact ⟨hV, (Except.ok.inj h).symm⟩
      · simp [set_loop_body, store, hV, hB, hc, Except.map, bind, Except.bind] at h
    · refine ⟨hV, ?_⟩
      simp [set_loop_body, store, hV, hc, Except.map, bind, Except.bind] at h
      simp [hc, ← h]
  · simp [set_loop_body, store, hV, Except.map, bind, Except.bind] at h

theorem set_loop_body_name_of_ok (c : Char) (col : Nat) (B V : List Cell)
    (st1 : SetLocals) (h : set_loop_body c col ⟨B, V, col, 0, true, false⟩ = .ok st1) :
    col < B.length ∧
      st1 = if c = '=' then ⟨B.set col Cell.nul, V, col + 1, 0, false, true⟩
            else ⟨B.set col (Cell.chr c), V, col + 1, 0, true, false⟩ := by
  by_cases hB : col < B.length
  · rw [set_loop_body_name c col B V hB] at h
    refine ⟨hB, ?_⟩
    split at h <;> rename_i hc
    · rw [if_pos hc]; exact (Except.ok.inj h).symm
    · rw [if_neg hc]; exact (Except.ok.inj h).symm
  · simp [set_loop_body, store, hB, Except.map, bind, Except.bind] at h

theorem bind_eq_ok {α β : Type} (x : Except Fault α) (f : α → Except Fault β) (r : β)
    (h : (x >>= f) = .ok r) : ∃ a, x = .ok a ∧ f a = .ok r := by
  cases x with
  | error e => simp [bind, Except.bind] at h
  | ok a => exact ⟨a, rfl, h⟩

theorem store_of_ok {α : Type} (buf : List α) (i : Nat) (x : α) (r : List α)
    (h : store buf i x = .ok r) : i < buf.length ∧ r = buf.set i x := by
  by_cases hi : i < buf.length
  · rw [store_ok buf i x hi] at h
    exact ⟨hi, (Except.ok.inj h).symm⟩
  · simp [store, hi] at h

theorem load_of_ok {α : Type} (buf : List α) (i : Nat) (x : α)
    (h : load buf i = .ok x) : buf[i]? = some x := by
  unfold load at h
  split at h
  · rename_i y hy
    rw [hy, Except.ok.inj h]
  · cases h

theorem set_loop_value_of_ok (cs : List Char) : ∀ (col : Nat) (B V : List Cell) (k vi : Nat)
    (st : SetLocals), vi ≤ V.length → set_loop cs col ⟨B, V, k, vi, false, true⟩ = .ok st →
    vi + cs.length ≤ V.length ∧ ∃ B',
      st = ⟨B', V.take vi ++ cs.map Cell.chr ++ V.drop (vi + cs.length), k,
                vi + cs.length, false, true⟩
      ∧ B'.length = B.length ∧ B'.take col = B.take col := by
  induction cs with
  | nil =>
    intro col B V k vi st hv h
    simp only [set_loop] at h
    exact ⟨hv, B, by rw [← Except.ok.inj h]; simp, rfl, rfl⟩
  | cons c cs ih =>
    intro col B V k vi st _ h
    simp only [set_loop] at h
    obtain ⟨st1, hb, hrest⟩ := bind_eq_ok _ _ _ h
    obtain ⟨hvi, hst1⟩ := set_loop_body_value_of_ok c col B V k vi st1 hb
    subst hst1
    have hlen : (if c = '=' then B.set col Cell.nul else B).length = B.length := by
      split <;> simp
    obtain ⟨hV, B', h1, h2, h3⟩ := ih (col + 1) _ _ k (vi + 1) st (by simp; omega) hrest
    simp only [List.length_set] at hV
    refine ⟨by simp only [List.length_cons]; omega, B', ?_, ?_, ?_⟩
    · rw [h1, take_set_succ V vi _ hvi, drop_set_succ V vi _ _ (by omega)]
      simp [Nat.add_assoc, Nat.add_comm 1]
    · rw [h2]; exact hlen
    · have := congrArg (List.take col) h3
      simp only [List.take_take, Nat.min_eq_left (Nat.le_succ col)] at this
      rw [this]
      split
      · exact take_set_ge B col col _ (Nat.le_refl _)
      · rfl

theorem set_loop_name_of_ok (cs : List Char) : ∀ (col : Nat) (B V : List Cell)
    (st : SetLocals), set_loop cs col ⟨B, V, col, 0, true, false⟩ = .ok st →
    ('=' ∉ cs ∧ st.append_value = false ∧ st.value_buf = V ∧ st.value_index = 0) ∨
    (∃ a b B', cs = a ++ '=' :: b ∧ '=' ∉ a ∧ b.length ≤ V.length ∧
      st = ⟨B', b.map Cell.chr ++ V.drop b.length, col + a.length + 1, b.length, false, true⟩
      ∧ col + a.length < B'.length
      ∧ B'.take (col + a.length + 1) = B.take col ++ a.map Cell.chr ++ [Cell.nul]) := by
  induction cs with
  | nil =>
    intro col B V st h
    simp only [set_loop] at h
    left
    rw [← Except.ok.inj h]
    simp
  | cons c cs ih =>
    intro col B V st h
    simp only [set_loop] at h
    obtain ⟨st1, hb, hrest⟩ := bind_eq_ok _ _ _ h
    obtain ⟨hcol, hst1⟩ := set_loop_body_name_of_ok c col B V st1 hb
    by_cases hc : c = '='
    · right
      rw [if_pos hc] at hst1
      subst hst1
      obtain ⟨hV, B', h1, h2, h3⟩ := set_loop_value_of_ok cs (col + 1) _ V (col + 1) 0 st
        (Nat.zero_le _) hrest
      refine ⟨[], cs, B', by simp [hc], by simp, by omega, ?_, ?_, ?_⟩
      · rw [h1]; simp
      · rw [h2]; simpa using hcol
      · simp only [List.length_nil, Nat.add_zero, List.map_nil, List.append_nil]
        rw [h3, take_set_succ B col _ hcol]
    · rw [if_neg hc] at hst1
      subst hst1
      rcases ih (col + 1) _ V st hrest with ⟨h1, h2⟩ | ⟨a, b, B', h1, h2, h3, h4, h5, h6⟩
      · left
        refine ⟨?_, h2⟩
        intro hm
        rcases List.mem_cons.mp hm with e | e
        · exact hc e.symm
        · exact h1 e
      · right
        refine ⟨c :: a, b, B', by simp [h1], ?_, h3, ?_, ?_, ?_⟩
        · intro hm
          rcases List.mem_cons.mp hm with e | e
          · exact hc e.symm
          · exact h2 e
        · rw [h4]; simp [Nat.add_assoc, Nat.add_comm 1]
        · simp only [List.length_cons]; omega
        · have e : col + (c :: a).length + 1 = col + 1 + a.length + 1 := by
            simp only [List.length_cons]; omega
          rw [e, h6, take_set_succ B col _ hcol]
          simp

/-- Whatever run of lines 143-195 ends without a fault either rejects and
changes nothing, or stores the split of `args[1]` at its first `=`. -/
theorem set_two_tokens_of_ok (t0 t1 : Token) (arguments : List Argument) (s_index : Nat)
    (r : List Argument × Nat × List String)
    (h : set_two_tokens t0 t1 arguments s_index = .ok r) :
    r = (arguments, s_index, [INVALID_NOTICE]) ∨
    (t0 = SET ∧ t1.head? = some '$' ∧ '=' ∈ t1 ∧ s_index < arguments.length ∧
      r = (arguments.set s_index ⟨name_part t1, value_part t1⟩, s_index + 1, [])) := by
  unfold set_two_tokens at h
  split at h
  · rename_i h0
    obtain ⟨st, hloop, h⟩ := bind_eq_ok _ _ _ h
    obtain ⟨vb, hvb, h⟩ := bind_eq_ok _ _ _ h
    obtain ⟨hvlt, hvb⟩ := store_of_ok _ _ _ _ hvb
    simp only [SetLocals.entry] at hloop
    rcases set_loop_name_of_ok t1 0 _ _ st hloop with
      ⟨_, h2, _, _⟩ | ⟨a, b, B', h1, h2, h3, h4, h5, h6⟩
    · left
      simp only [h2, Bool.not_false, Bool.or_true] at h
      exact (Except.ok.inj h).symm
    · right
      subst h4
      have hne : ¬ (t1.length = 1) := by
        intro e
        rw [h1] at e
        have ha : a = [] := by
          simp only [List.length_append, List.length_cons] at e
          exact List.length_eq_zero.mp (by omega)
        subst ha
        rw [h1] at h0
        have := h0.2
        simp at this
      simp only [hne, decide_False, Bool.not_true, Bool.or_self, if_true] at h
      obtain ⟨nm, hnm, h⟩ := bind_eq_ok _ _ _ h
      obtain ⟨vl, hvl, h⟩ := bind_eq_ok _ _ _ h
      obtain ⟨ar, har, h⟩ := bind_eq_ok _ _ _ h
      obtain ⟨hroom, har⟩ := store_of_ok _ _ _ _ har
      have hB : B' = a.map Cell.chr ++ Cell.nul :: B'.drop (a.length + 1) := by
        conv_lhs => rw [← List.take_append_drop (a.length + 1) B']
        simp only [Nat.zero_add, List.take_zero, List.nil_append] at h6
        rw [h6]
        simp
      rw [hB, strdup_terminated] at hnm
      simp only [List.length_append, List.length_map, List.length_drop,
        List.length_replicate] at hvlt
      have hV : vb = b.map Cell.chr ++ Cell.nul :: List.replicate (MAX_LENGTH - b.length - 1)
              Cell.indet := by
        rw [hvb, List.set_append_right _ _ (by simp)]
        simp only [List.length_map, Nat.sub_self, List.drop_replicate]
        have : MAX_LENGTH - b.length = (MAX_LENGTH - b.length - 1) + 1 := by omega
        rw [this, List.replicate_succ, List.set_cons_zero]
        simp
      rw [hV, strdup_terminated] at hvl
      have e1 : name_part t1 = nm := by
        rw [h1, name_part_append a b h2]; exact Except.ok.inj hnm
      have e2 : value_part t1 = vl := by
        rw [h1, value_part_append a b h2]; exact Except.ok.inj hvl
      refine ⟨h0.1, h0.2, by rw [h1]; simp, hroom, ?_⟩
      rw [e1, e2, ← har]
      exact (Except.ok.inj h).symm
  · left
    exact (Except.ok.inj h).symm

/-! ## Auxiliary facts: process_set_command on a token array -/

theorem load_argv_array_tok (toks : List Token) (rest : List Slot) (i : Nat) (t : Token)
    (h : toks[i]? = some t) : load (argv_array toks rest) i = .ok (some t) := by
  apply load_ok
  have hi : i < toks.length := by
    rcases Nat.lt_or_ge i toks.length with h1 | h1
    · exact h1
    · rw [List.getElem?_eq_none h1] at h; cases h
  unfold argv_array
  rw [List.getElem?_append_left (by simpa using hi), List.getElem?_map, h]
  rfl

theorem load_argv_array_end (toks : List Token) (rest : List Slot) :
    load (argv_array toks rest) toks.length = .ok none := by
  apply load_ok
  unfold argv_array
  rw [List.getElem?_append_right (by simp)]
  simp

theorem process_set_command_two (t0 t1 : Token) (rest : List Slot)
    (arguments : List Argument) (s_index : Nat) :
    process_set_command (argv_array [t0, t1] rest) arguments s_index
      = set_two_tokens t0 t1 arguments s_index := by
  simp [process_set_command, argv_array, load, bind, Except.bind]

theorem process_set_command_arity (toks : List Token) (rest : List Slot)
    (arguments : List Argument) (s_index : Nat) (h : toks.length ≠ 2) :
    process_set_command (argv_array toks rest) arguments s_index
      = .ok (arguments, s_index, [INVALID_NOTICE]) := by
  match toks, h with
  | [], _ => simp [process_set_command, argv_array, load, bind, Except.bind]
  | [_], _ => simp [process_set_command, argv_array, load, bind, Except.bind]
  | [_, _], h => simp at h
  | _ :: _ :: _ :: _, _ => simp [process_set_command, argv_array, load, bind, Except.bind]

theorem process_set_command_of_ok (args : List Slot) (arguments : List Argument)
    (s_index : Nat) (r : List Argument × Nat × List String)
    (h : process_set_command args arguments s_index = .ok r) :
    r = (arguments, s_index, [INVALID_NOTICE]) ∨
    (∃ t0 t1, args[0]? = some (some t0) ∧ args[1]? = some (some t1) ∧ args[2]? = some none ∧
      t0 = SET ∧ t1.head? = some '$' ∧ '=' ∈ t1 ∧ s_index < arguments.length ∧
      r = (arguments.set s_index ⟨name_part t1, value_part t1⟩, s_index + 1, [])) := by
  unfold process_set_command at h
  obtain ⟨a0, h0, h⟩ := bind_eq_ok _ _ _ h
  cases a0 with
  | none => left; exact (Except.ok.inj h).symm
  | some t0 =>
    simp only at h
    obtain ⟨a1, h1, h⟩ := bind_eq_ok _ _ _ h
    cases a1 with
    | none => left; exact (Except.ok.inj h).symm
    | some t1 =>
      simp only at h
      obtain ⟨a2, h2, h⟩ := bind_eq_ok _ _ _ h
      cases a2 with
      | some _ => left; exact (Except.ok.inj h).symm
      | none =>
        simp only at h
        rcases set_two_tokens_of_ok t0 t1 arguments s_index r h with e | ⟨e1, e2, e3, e4, e5⟩
        · left; exact e
        · right
          exact ⟨t0, t1, load_of_ok _ _ _ h0, load_of_ok _ _ _ h1, load_of_ok _ _ _ h2,
            e1, e2, e3, e4, e5⟩

/-- The closed form of `process_set_command` on a token array whose second
token fits the local buffers. -/
theorem process_set_command_eq (toks : List Token) (rest : List Slot)
    (arguments : List Argument) (s_index : Nat)
    (hlen : ∀ t ∈ toks, t.length < MAX_LENGTH) :
    process_set_command (argv_array toks rest) arguments s_index
      = match toks with
        | [t0, t1] =>
          if t0 = SET ∧ t1.head? = some '$' ∧ '=' ∈ t1 then
            store arguments s_index ⟨name_part t1, value_part t1⟩ >>= fun a =>
              .ok (a, s_index + 1, [])
          else .ok (arguments, s_index, [INVALID_NOTICE])
        | _ => .ok (arguments, s_index, [INVALID_NOTICE]) := by
  match toks, hlen with
  | [], _ => exact process_set_command_arity [] rest arguments s_index (by simp)
  | [t], _ => exact process_set_command_arity [t] rest arguments s_index (by simp)
  | [t0, t1], hlen =>
    rw [process_set_command_two]
    exact set_two_tokens_eq t0 t1 arguments s_index (hlen t1 (by simp))
  | a :: b :: c :: l, _ =>
    exact process_set_command_arity (a :: b :: c :: l) rest arguments s_index (by simp)

/-! ## Claims on process_set_command -/

/-- C2. On the two tokens `set`, `arg`, where `arg` is shorter than 50
characters, begins with `$` and has exactly one `=`, the call appends (in a
table with room) the binding whose name is the part of `arg` before the `=`
and whose value is the part after it: `arg` is name, `=`, value; the name
keeps the `$`; neither part has a `=`.  The conclusion does not depend on how
many characters follow the `=`. -/
theorem process_set_command_splits_at_eq (arg : Token) (rest : List Slot)
    (arguments : List Argument) (s_index : Nat)
    (hlen : arg.length < MAX_LENGTH) (hsig : arg.head? = some '$')
    (hone : arg.count '=' = 1) (hroom : s_index < arguments.length) :
    process_set_command (argv_array [SET, arg] rest) arguments s_index
        = .ok (arguments.set s_index ⟨name_part arg, value_part arg⟩, s_index + 1, [])
    ∧ arg = name_part arg ++ '=' :: value_part arg
    ∧ (name_part arg).head? = some '$'
    ∧ '=' ∉ name_part arg ∧ '=' ∉ value_part arg := by
  have hmem : '=' ∈ arg := List.count_pos_iff.mp (by omega)
  have hsplit := split_at_eq arg hmem
  have hno := name_part_no_eq arg
  refine ⟨?_, hsplit, name_part_head arg '$' hsig (by decide), hno, ?_⟩
  · rw [process_set_command_two, set_two_tokens_eq SET arg arguments s_index hlen,
      if_pos ⟨rfl, hsig, hmem⟩, store_ok _ _ _ hroom]
    rfl
  · intro hv
    have hc : (name_part arg ++ '=' :: value_part arg).count '=' = 1 := by
      rw [← hsplit]; exact hone
    rw [List.count_append, List.count_cons_self] at hc
    have : 0 < (value_part arg).count '=' := List.count_pos_iff.mpr hv
    omega

/-- Witness of C2 on `set $list=ls`, the example of the file header. -/
theorem process_set_command_splits_at_eq_witness :
    (['$', 'l', 'i', 's', 't', '=', 'l', 's'].length < MAX_LENGTH) ∧
    (['$', 'l', 'i', 's', 't', '=', 'l', 's'].head? = some '$') ∧
    (['$', 'l', 'i', 's', 't', '=', 'l', 's'].count '=' = 1) ∧
    (0 < [Argument.mk [] []].length) ∧
    (process_set_command (argv_array [SET, ['$', 'l', 'i', 's', 't', '=', 'l', 's']] [])
        [Argument.mk [] []] 0
        = .ok ([Argument.mk [] []].set 0
            ⟨name_part ['$', 'l', 'i', 's', 't', '=', 'l', 's'],
             value_part ['$', 'l', 'i', 's', 't', '=', 'l', 's']⟩, 0 + 1, [])
    ∧ ['$', 'l', 'i', 's', 't', '=', 'l', 's']
        = name_part ['$', 'l', 'i', 's', 't', '=', 'l', 's']
          ++ '=' :: value_part ['$', 'l', 'i', 's', 't', '=', 'l', 's']
    ∧ (name_part ['$', 'l', 'i', 's', 't', '=', 'l', 's']).head? = some '$'
    ∧ '=' ∉ name_part ['$', 'l', 'i', 's', 't', '=', 'l', 's']
    ∧ '=' ∉ value_part ['$', 'l', 'i', 's', 't', '=', 'l', 's']) :=
  ⟨by decide, by decide, by decide, by decide,
    process_set_command_splits_at_eq ['$', 'l', 'i', 's', 't', '=', 'l', 's'] []
      [Argument.mk [] []] 0 (by decide) (by decide) (by decide) (by decide)⟩

/-- C6. The call rejects, and leaves table and size as they were, every token
sequence (of tokens that fit the local buffers) that has fewer or more than two
tokens, or whose second token is the bare `$`, or has no `=`, or does not begin
with `$`. -/
theorem process_set_command_rejects_malformed (toks : List Token) (rest : List Slot)
    (arguments : List Argument) (s_index : Nat)
    (hlen : ∀ t ∈ toks, t.length < MAX_LENGTH)
    (hbad : toks.length ≠ 2 ∨ toks[1]? = some ['$'] ∨ (∃ t, toks[1]? = some t ∧ '=' ∉ t)
      ∨ (∃ t, toks[1]? = some t ∧ t.head? ≠ some '$')) :
    process_set_command (argv_array toks rest) arguments s_index
      = .ok (arguments, s_index, [INVALID_NOTICE]) := by
  rw [process_set_command_eq toks rest arguments s_index hlen]
  split
  · rename_i t0 t1 _
    rw [if_neg]
    rintro ⟨_, hs, he⟩
    rcases hbad with h | h | ⟨t, h1, h2⟩ | ⟨t, h1, h2⟩
    · simp at h
    · simp only [List.getElem?_cons_succ, List.getElem?_cons_zero, Option.some.injEq] at h
      subst h
      simp at he
    · simp only [List.getElem?_cons_succ, List.getElem?_cons_zero, Option.some.injEq] at h1
      subst h1
      exact h2 he
    · simp only [List.getElem?_cons_succ, List.getElem?_cons_zero, Option.some.injEq] at h1
      subst h1
      exact h2 hs
  · rfl

/-- Witness of C6 on the five commands the claim names: `set`, `set $`,
`set $x`, `set $novalue` and `set $x=v extra`, on a table holding one binding. -/
theorem process_set_command_rejects_malformed_witness :
    (∀ t ∈ [SET, ['$', 'x', '=', 'v'], ['e', 'x', 't', 'r', 'a']], t.length < MAX_LENGTH) ∧
    ([SET, ['$', 'x', '=', 'v'], ['e', 'x', 't', 'r', 'a']].length ≠ 2) ∧
    process_set_command (argv_array [SET, ['$', 'x', '=', 'v'], ['e', 'x', 't', 'r', 'a']] [])
        [Argument.mk ['$', 'a'] ['b'], Argument.mk [] []] 1
      = .ok ([Argument.mk ['$', 'a'] ['b'], Argument.mk [] []], 1, [INVALID_NOTICE]) ∧
    process_set_command (argv_array [SET] [])
        [Argument.mk ['$', 'a'] ['b'], Argument.mk [] []] 1
      = .ok ([Argument.mk ['$', 'a'] ['b'], Argument.mk [] []], 1, [INVALID_NOTICE]) ∧
    process_set_command (argv_array [SET, ['$']] [])
        [Argument.mk ['$', 'a'] ['b'], Argument.mk [] []] 1
      = .ok ([Argument.mk ['$', 'a'] ['b'], Argument.mk [] []], 1, [INVALID_NOTICE]) ∧
    process_set_command (argv_array [SET, ['$', 'x']] [])
        [Argument.mk ['$', 'a'] ['b'], Argument.mk [] []] 1
      = .ok ([Argument.mk ['$', 'a'] ['b'], Argument.mk [] []], 1, [INVALID_NOTICE]) ∧
    process_set_command (argv_array [SET, ['$', 'n', 'o', 'v', 'a', 'l', 'u', 'e']] [])
        [Argument.mk ['$', 'a'] ['b'], Argument.mk [] []] 1
      = .ok ([Argument.mk ['$', 'a'] ['b'], Argument.mk [] []], 1, [INVALID_NOTICE]) :=
  ⟨by decide, by decide,
    process_set_command_rejects_malformed _ _ _ _ (by decide) (Or.inl (by decide)),
    process_set_command_rejects_malformed _ _ _ _ (by decide) (Or.inl (by decide)),
    process_set_command_rejects_malformed _ _ _ _ (by decide) (Or.inr (Or.inl rfl)),
    process_set_command_rejects_malformed _ _ _ _ (by decide)
      (Or.inr (Or.inr (Or.inl ⟨_, rfl, by decide⟩))),
    process_set_command_rejects_malformed _ _ _ _ (by decide)
      (Or.inr (Or.inr (Or.inl ⟨_, rfl, by decide⟩)))⟩

/-- C7, as the code has it. On the two tokens `set`, `$x=` (shorter than 50
characters, table with room) the call accepts: it returns the size plus one and
stores the binding that splits the token at its first `=`; when `x` has no `=`
that binding is named `$x` and its value is the empty string. -/
theorem process_set_command_accepts_empty_value (x : List Char) (rest : List Slot)
    (arguments : List Argument) (s_index : Nat)
    (hlen : ('$' :: x ++ ['=']).length < MAX_LENGTH) (hroom : s_index < arguments.length) :
    process_set_command (argv_array [SET, '$' :: x ++ ['=']] rest) arguments s_index
        = .ok (arguments.set s_index
            ⟨name_part ('$' :: x ++ ['=']), value_part ('$' :: x ++ ['='])⟩, s_index + 1, [])
    ∧ ('=' ∉ x → name_part ('$' :: x ++ ['=']) = '$' :: x ∧ value_part ('$' :: x ++ ['=']) = []) := by
  constructor
  · rw [process_set_command_two, set_two_tokens_eq SET _ arguments s_index hlen,
      if_pos ⟨rfl, by simp, by simp⟩, store_ok _ _ _ hroom]
    rfl
  · intro hx
    have h : '=' ∉ '$' :: x := by
      intro hm
      rcases List.mem_cons.mp hm with e | e
      · exact absurd e (by decide)
      · exact hx e
    exact ⟨name_part_append ('$' :: x) [] h, value_part_append ('$' :: x) [] h⟩

/-- Witness of the amended C7 on `set $x=`. -/
theorem process_set_command_accepts_empty_value_witness :
    (('$' :: ['x'] ++ ['=']).length < MAX_LENGTH) ∧ (0 < [Argument.mk [] []].length) ∧
    (process_set_command (argv_array [SET, '$' :: ['x'] ++ ['=']] []) [Argument.mk [] []] 0
        = .ok ([Argument.mk [] []].set 0
            ⟨name_part ('$' :: ['x'] ++ ['=']), value_part ('$' :: ['x'] ++ ['='])⟩, 0 + 1, [])
    ∧ ('=' ∉ ['x'] → name_part ('$' :: ['x'] ++ ['=']) = '$' :: ['x']
        ∧ value_part ('$' :: ['x'] ++ ['=']) = [])) :=
  ⟨by decide, by decide,
    process_set_command_accepts_empty_value ['x'] [] [Argument.mk [] []] 0
      (by decide) (by decide)⟩

/-- C7 fails as stated: `set $x=` on the empty table of capacity one is not
rejected; the call returns size 1 and stores the binding of `$x` to the empty
string. -/
theorem process_set_command_empty_value_not_rejected :
    process_set_command (argv_array [SET, ['$', 'x', '=']] []) [Argument.mk [] []] 0
      = .ok ([Argument.mk ['$', 'x'] []], 1, [])
    ∧ process_set_command (argv_array [SET, ['$', 'x', '=']] []) [Argument.mk [] []] 0
      ≠ .ok ([Argument.mk [] []], 0, [INVALID_NOTICE]) := by
  decide

/-- C8, as the code has it. In every table reachable from the empty one by
calls of `process_set_command` on arbitrary token arrays, each of the `s_index`
stored bindings has a name that begins with `$` (so is not empty) and has no
`=`; nothing is promised of the value. -/
theorem reachable_names_begin_with_sigil (arguments : List Argument) (s_index : Nat)
    (h : Reachable arguments s_index) :
    s_index ≤ arguments.length ∧
    ∀ i, i < s_index → ∃ e, arguments[i]? = some e ∧ e.var_name.head? = some '$'
      ∧ e.var_name ≠ [] ∧ '=' ∉ e.var_name := by
  induction h with
  | start arguments => exact ⟨Nat.zero_le _, fun i hi => absurd hi (Nat.not_lt_zero i)⟩
  | call args arguments arguments1 s_index s_index1 out _ hcall ih =>
    rcases process_set_command_of_ok args arguments s_index _ hcall with
      e | ⟨t0, t1, _, _, _, _, hs, he, hroom, e⟩
    · simp only [Prod.mk.injEq] at e
      rw [e.1, e.2.1]
      exact ih
    · simp only [Prod.mk.injEq] at e
      rw [e.1, e.2.1]
      refine ⟨by simp; omega, ?_⟩
      intro i hi
      by_cases hi' : i = s_index
      · subst hi'
        refine ⟨⟨name_part t1, value_part t1⟩, by simp [List.getElem?_set, hroom], ?_, ?_, ?_⟩
        · exact name_part_head t1 '$' hs (by decide)
        · intro hn
          have := name_part_head t1 '$' hs (by decide)
          simp only at hn
          rw [hn] at this
          cases this
        · exact name_part_no_eq t1
      · obtain ⟨e', h1, h2⟩ := ih.2 i (by omega)
        exact ⟨e', by simp [List.getElem?_set, Ne.symm hi', h1], h2⟩

/-- Witness of the amended C8: the table after `set $a=b` on the empty table. -/
theorem reachable_names_begin_with_sigil_witness :
    Reachable [Argument.mk ['$', 'a'] ['b']] 1 ∧
    (1 ≤ [Argument.mk ['$', 'a'] ['b']].length ∧
    ∀ i, i < 1 → ∃ e, [Argument.mk ['$', 'a'] ['b']][i]? = some e
      ∧ e.var_name.head? = some '$' ∧ e.var_name ≠ [] ∧ '=' ∉ e.var_name) :=
  have hr : Reachable [Argument.mk ['$', 'a'] ['b']] 1 :=
    Reachable.call (argv_array [SET, ['$', 'a', '=', 'b']] []) [Argument.mk [] []] _ 0 1 []
      (Reachable.start _) (by decide)
  ⟨hr, reachable_names_begin_with_sigil _ _ hr⟩

/-- C8 fails as stated: the table reached from the empty one by the single
call on `set $x=` holds a binding whose value is empty. -/
theorem reachable_table_with_empty_value :
    Reachable [Argument.mk ['$', 'x'] []] 1 ∧
    ∃ e, [Argument.mk ['$', 'x'] []][0]? = some e ∧ e.var_value = [] :=
  ⟨Reachable.call (argv_array [SET, ['$', 'x', '=']] []) [Argument.mk [] []] _ 0 1 []
      (Reachable.start _) (by decide), ⟨_, rfl, rfl⟩⟩

/-! ## Auxiliary facts: process_variable_replacement -/

theorem last_match_some (ptr : List Argument) (var : Token) (n j : Nat)
    (h : last_match ptr var n = some j) :
    j < n ∧ (∃ e, ptr[j]? = some e ∧ e.var_name = var) ∧
      ∀ k e, j < k → k < n → ptr[k]? = some e → e.var_name ≠ var := by
  induction n with
  | zero => simp [last_match] at h
  | succ n ih =>
    unfold last_match at h
    split at h
    · rename_i e he
      split at h
      · rename_i hn
        have hj : n = j := Option.some.inj h
        subst hj
        exact ⟨Nat.lt_succ_self _, ⟨e, he, hn⟩, fun k _ h1 h2 _ => by omega⟩
      · rename_i hn
        obtain ⟨h1, h2, h3⟩ := ih h
        refine ⟨by omega, h2, ?_⟩
        intro k e' hk1 hk2 hk3
        by_cases hkn : k = n
        · subst hkn
          rw [he] at hk3
          rw [← Option.some.inj hk3]
          exact hn
        · exact h3 k e' hk1 (by omega) hk3
    · rename_i he
      obtain ⟨h1, h2, h3⟩ := ih h
      refine ⟨by omega, h2, ?_⟩
      intro k e' hk1 hk2 hk3
      by_cases hkn : k = n
      · subst hkn
        rw [he] at hk3
        cases hk3
      · exact h3 k e' hk1 (by omega) hk3

theorem last_match_none (ptr : List Argument) (var : Token) (n : Nat)
    (h : last_match ptr var n = none) :
    ∀ k e, k < n → ptr[k]? = some e → e.var_name ≠ var := by
  induction n with
  | zero => intro k e hk; omega
  | succ n ih =>
    unfold last_match at h
    intro k e hk hke
    split at h
    · rename_i e0 he
      split at h
      · cases h
      · rename_i hn
        by_cases hkn : k = n
        · subst hkn
          rw [he] at hke
          rw [← Option.some.inj hke]
          exact hn
        · exact ih h k e (by omega) hke
    · rename_i he
      by_cases hkn : k = n
      · subst hkn
        rw [he] at hke
        cases hke
      · exact ih h k e (by omega) hke

/-- The scan ends on `j` when `j` is the greatest index of a binding named `var`. -/
theorem last_match_greatest (ptr : List Argument) (var : Token) (n j : Nat) (e : Argument)
    (hj : j < n) (he : ptr[j]? = some e) (hname : e.var_name = var)
    (hlast : ∀ k e', j < k → k < n → ptr[k]? = some e' → e'.var_name ≠ var) :
    last_match ptr var n = some j := by
  cases h : last_match ptr var n with
  | none => exact absurd hname (last_match_none ptr var n h j e hj he)
  | some i =>
    obtain ⟨h1, ⟨e1, h2, h2'⟩, h3⟩ := last_match_some ptr var n i h
    rcases Nat.lt_trichotomy i j with hlt | heq | hgt
    · exact absurd hname (h3 j e hlt hj he)
    · rw [heq]
    · exact absurd h2' (hlast i e1 hgt h1 h2)

theorem search_loop_snoc (ptr : List Argument) (var : Token) (n : Nat) :
    ∀ (i : Nat) (index : Option Nat) (tr : Bool),
    search_loop ptr var (n + 1) i index tr
      = search_loop ptr var n i index tr >>= search_step ptr var (i + n) := by
  induction n with
  | zero =>
    intro i index tr
    simp only [search_loop, search_step, bind, Except.bind, Nat.add_zero]
  | succ n ih =>
    intro i index tr
    rw [search_loop]
    conv_rhs => rw [search_loop]
    cases load ptr i with
    | error e => rfl
    | ok e =>
      simp only [bind, Except.bind]
      have e1 : i + (n + 1) = i + 1 + n := by omega
      split
      · have := ih (i + 1) (some i) true
        simp only [bind, Except.bind] at this
        rw [this, e1]
      · have := ih (i + 1) index tr
        simp only [bind, Except.bind] at this
        rw [this, e1]

/-- The closed form of the scan of lines 94-101 over the first `n` entries. -/
theorem search_loop_eq (ptr : List Argument) (var : Token) (n : Nat) (index : Option Nat)
    (tr : Bool) (hn : n ≤ ptr.length) :
    search_loop ptr var n 0 index tr
      = .ok (match last_match ptr var n with
             | some j => (some j, true)
             | none => (index, tr)) := by
  induction n with
  | zero => simp [search_loop, last_match]
  | succ n ih =>
    rw [search_loop_snoc, ih (by omega)]
    have hlt : n < ptr.length := by omega
    have hget : ptr[n]? = some ptr[n] := List.getElem?_eq_getElem hlt
    simp only [bind, Except.bind, search_step, Nat.zero_add, load, hget, last_match]
    split <;> rfl

theorem resolve_of_match (ptr : List Argument) (s_index : Nat) (t : Token) (j : Nat)
    (e : Argument) (hsig : t.head? = some '$') (hm : last_match ptr t s_index = some j)
    (he : ptr[j]? = some e) : resolve ptr s_index t = e.var_value := by
  simp [resolve, hsig, hm, he]

theorem resolve_of_no_match (ptr : List Argument) (s_index : Nat) (t : Token)
    (hm : last_match ptr t s_index = none) : resolve ptr s_index t = t := by
  simp [resolve, hm]

theorem resolve_of_no_sigil (ptr : List Argument) (s_index : Nat) (t : Token)
    (hsig : t.head? ≠ some '$') : resolve ptr s_index t = t := by
  simp [resolve, hsig]

theorem load_middle {α : Type} (pre : List α) (x : α) (post : List α) :
    load (pre ++ x :: post) pre.length = .ok x := by
  apply load_ok
  rw [List.getElem?_append_right (Nat.le_refl _)]
  simp

theorem store_middle {α : Type} (pre : List α) (x y : α) (post : List α) :
    store (pre ++ x :: post) pre.length y = .ok (pre ++ y :: post) := by
  rw [store_ok _ _ _ (by simp)]
  rw [List.set_append_right _ _ (Nat.le_refl _)]
  simp

/-- The closed form of the loop of lines 87-108: each of the tokens still to
visit is resolved on its own, the rest of the array is left as it is. -/
theorem replace_loop_eq (ptr : List Argument) (s_index : Nat) (hcap : s_index ≤ ptr.length)
    (toks : List Token) : ∀ (pre post : List Slot) (index : Option Nat),
    replace_loop ptr s_index toks.length pre.length (pre ++ toks.map some ++ post) index false
      = .ok (pre ++ (toks.map (resolve ptr s_index)).map some ++ post) := by
  induction toks with
  | nil => intro pre post index; simp [replace_loop]
  | cons t ts ih =>
    intro pre post index
    have hshape : pre ++ List.map some (t :: ts) ++ post
        = pre ++ some t :: (ts.map some ++ post) := by simp
    have hnext : ∀ (u : Token) (idx : Option Nat),
        replace_loop ptr s_index ts.length (pre.length + 1)
            (pre ++ some u :: (ts.map some ++ post)) idx false
          = .ok (pre ++ some u :: ((ts.map (resolve ptr s_index)).map some ++ post)) := by
      intro u idx
      have := ih (pre ++ [some u]) post idx
      simp only [List.length_append, List.length_singleton, List.append_assoc,
        List.singleton_append] at this
      simpa using this
    rw [hshape, List.length_cons, replace_loop, load_middle]
    simp only [bind, Except.bind]
    by_cases hsig : t.head? = some '$'
    · rw [if_pos hsig, search_loop_eq ptr t s_index index false hcap]
      cases hm : last_match ptr t s_index with
      | none =>
        simp only [Bool.false_eq_true, if_false]
        rw [hnext t index]
        simp [resolve_of_no_match ptr s_index t hm]
      | some j =>
        obtain ⟨hj, ⟨e, he, _⟩, _⟩ := last_match_some ptr t s_index j hm
        simp only [if_true]
        rw [load_ok ptr j e he]
        simp only [store_middle]
        rw [hnext e.var_value (some j)]
        simp [resolve_of_match ptr s_index t j e hsig hm he]
    · rw [if_neg hsig, hnext t index]
      simp [resolve_of_no_sigil ptr s_index t hsig]

/-- The closed form of `process_variable_replacement` on a token array: a
command that begins with `set` is left alone, any other has each of its tokens
resolved on its own. -/
theorem process_variable_replacement_eq (toks : List Token) (rest : List Slot)
    (ptr : List Argument) (s_index : Nat) (hcap : s_index ≤ ptr.length) :
    process_variable_replacement (argv_array toks rest) toks.length ptr s_index
      = .ok (argv_array
          (if toks.head? = some SET then toks else toks.map (resolve ptr s_index)) rest) := by
  cases toks with
  | nil => simp [process_variable_replacement, argv_array, load, bind, Except.bind]
  | cons t0 ts =>
    have hload : load (argv_array (t0 :: ts) rest) 0 = .ok (some t0) :=
      load_argv_array_tok _ _ 0 t0 (by simp)
    simp only [process_variable_replacement, hload, bind, Except.bind, List.head?_cons,
      Option.some.injEq]
    by_cases h0 : t0 = SET
    · simp [h0]
    · rw [if_pos h0, if_neg h0]
      have := replace_loop_eq ptr s_index hcap (t0 :: ts) [] (none :: rest) none
      simpa [argv_array] using this

theorem argv_of_argv_array (toks : List Token) (rest : List Slot) :
    argv_of (argv_array toks rest) = .ok toks := by
  induction toks with
  | nil => simp [argv_array, argv_of]
  | cons t ts ih =>
    simp only [argv_array, List.map_cons, List.cons_append, argv_of, List.append_eq] at ih ⊢
    rw [ih]

/-- The closed form of the dispatch of a command whose first token is not `set`:
nothing is printed, the table is left as it is, the tokens are resolved, and
the executor gets the resolved tokens unless the first of them now reads `set`. -/
theorem dispatch_not_set (t0 : Token) (ts : List Token) (rest : List Slot)
    (ptr : List Argument) (s_index : Nat) (hcap : s_index ≤ ptr.length) (h0 : t0 ≠ SET) :
    dispatch (argv_array (t0 :: ts) rest) (t0 :: ts).length ptr s_index
      = .ok { args := argv_array ((t0 :: ts).map (resolve ptr s_index)) rest
              arguments := ptr
              s_index := s_index
              printed := []
              executed := if resolve ptr s_index t0 ≠ SET then
                  some ((t0 :: ts).map (resolve ptr s_index)) else none } := by
  have hload0 : load (argv_array (t0 :: ts) rest) 0 = .ok (some t0) :=
    load_argv_array_tok _ _ 0 t0 (by simp)
  have hload1 : ∃ a1, load (argv_array (t0 :: ts) rest) 1 = .ok a1 := by
    cases ts with
    | nil => exact ⟨none, load_argv_array_end [t0] rest⟩
    | cons t1 ts' => exact ⟨some t1, load_argv_array_tok _ _ 1 t1 (by simp)⟩
  obtain ⟨a1, hload1⟩ := hload1
  have hrep := process_variable_replacement_eq (t0 :: ts) rest ptr s_index hcap
  rw [if_neg (by simpa using h0)] at hrep
  have hload2 : load (argv_array ((t0 :: ts).map (resolve ptr s_index)) rest) 0
      = .ok (some (resolve ptr s_index t0)) := load_argv_array_tok _ _ 0 _ (by simp)
  unfold dispatch
  simp only [hload0, hload1, bind, Except.bind, h0, and_false, if_false, ne_eq,
    not_false_eq_true, if_true, hrep, hload2, List.append_nil]
  by_cases h1 : resolve ptr s_index t0 = SET
  · simp [h1]
  · simp only [h1, not_false_eq_true, if_true, fork_off, argv_of_argv_array]
    simp [argv_array, argv_of_argv_array]

/-! ## Claims on process_variable_replacement and the dispatch -/

/-- C3. Last-wins shadowing. In a command whose first token is not `set`
(the only commands the substitution rewrites), a token that begins with `$`
and is the name of a binding is replaced by the value of the binding of the
greatest index among those of that name. -/
theorem replacement_last_wins (toks : List Token) (rest : List Slot) (ptr : List Argument)
    (s_index row j : Nat) (t : Token) (e : Argument)
    (hcap : s_index ≤ ptr.length) (hfirst : toks.head? ≠ some SET)
    (hrow : toks[row]? = some t) (hsig : t.head? = some '$')
    (hj : j < s_index) (he : ptr[j]? = some e) (hname : e.var_name = t)
    (hlast : ∀ k e', j < k → k < s_index → ptr[k]? = some e' → e'.var_name ≠ t) :
    ∃ args1, process_variable_replacement (argv_array toks rest) toks.length ptr s_index
        = .ok args1 ∧ args1[row]? = some (some e.var_value) := by
  refine ⟨_, process_variable_replacement_eq toks rest ptr s_index hcap, ?_⟩
  rw [if_neg hfirst]
  have hm := last_match_greatest ptr t s_index j e hj he hname hlast
  have hrow' : row < toks.length := by
    rcases Nat.lt_or_ge row toks.length with h | h
    · exact h
    · rw [List.getElem?_eq_none h] at hrow; cases hrow
  unfold argv_array
  rw [List.getElem?_append_left (by simpa using hrow')]
  simp [List.getElem?_map, hrow, resolve_of_match ptr s_index t j e hsig hm he]

/-- Witness of C3: `set $a=first` and then `set $a=second` on the empty table
of capacity two; in `$a hello` the token `$a` becomes `second`. -/
theorem replacement_last_wins_witness :
    (process_set_command
        (argv_array [SET, ['$', 'a', '=', 'f', 'i', 'r', 's', 't']] [])
        [Argument.mk [] [], Argument.mk [] []] 0
      = .ok ([Argument.mk ['$', 'a'] ['f', 'i', 'r', 's', 't'], Argument.mk [] []], 1, [])) ∧
    (process_set_command
        (argv_array [SET, ['$', 'a', '=', 's', 'e', 'c', 'o', 'n', 'd']] [])
        [Argument.mk ['$', 'a'] ['f', 'i', 'r', 's', 't'], Argument.mk [] []] 1
      = .ok ([Argument.mk ['$', 'a'] ['f', 'i', 'r', 's', 't'],
              Argument.mk ['$', 'a'] ['s', 'e', 'c', 'o', 'n', 'd']], 2, [])) ∧
    ∃ args1, process_variable_replacement
        (argv_array [['$', 'a'], ['h', 'e', 'l', 'l', 'o']] [])
        [['$', 'a'], ['h', 'e', 'l', 'l', 'o']].length
        [Argument.mk ['$', 'a'] ['f', 'i', 'r', 's', 't'],
         Argument.mk ['$', 'a'] ['s', 'e', 'c', 'o', 'n', 'd']] 2
      = .ok args1 ∧
      args1[0]? = some (some (Argument.mk ['$', 'a'] ['s', 'e', 'c', 'o', 'n', 'd']).var_value) :=
  ⟨by decide, by decide,
    replacement_last_wins [['$', 'a'], ['h', 'e', 'l', 'l', 'o']] []
      [Argument.mk ['$', 'a'] ['f', 'i', 'r', 's', 't'],
       Argument.mk ['$', 'a'] ['s', 'e', 'c', 'o', 'n', 'd']] 2 0 1 ['$', 'a']
      (Argument.mk ['$', 'a'] ['s', 'e', 'c', 'o', 'n', 'd'])
      (by decide) (by decide) (by decide) (by decide) (by decide) (by decide) (by decide)
      (fun k e' h1 h2 _ => absurd h2 (by omega))⟩

/-- C5. Passthrough. On a command whose first token is not `set` the
substitution returns an array of as many tokens, in which every token that
does not begin with `$`, and every token that is no binding's name, stands
unchanged at its position, whatever happened to the tokens before it; and a
command without any `$`-token is handed to the executor as it is. -/
theorem replacement_passthrough (toks : List Token) (rest : List Slot) (ptr : List Argument)
    (s_index : Nat) (hcap : s_index ≤ ptr.length)
    (hfirst : ∃ t0, toks.head? = some t0 ∧ t0 ≠ SET) :
    ∃ toks1, process_variable_replacement (argv_array toks rest) toks.length ptr s_index
        = .ok (argv_array toks1 rest)
      ∧ toks1.length = toks.length
      ∧ (∀ (i : Nat) (t : Token), toks[i]? = some t →
          (t.head? ≠ some '$' ∨ ∀ k e, k < s_index → ptr[k]? = some e → e.var_name ≠ t) →
          toks1[i]? = some t)
      ∧ ((∀ t ∈ toks, t.head? ≠ some '$') →
          dispatch (argv_array toks rest) toks.length ptr s_index
            = .ok { args := argv_array toks rest, arguments := ptr, s_index := s_index,
                    printed := [], executed := some toks }) := by
  obtain ⟨t0, h0, hne⟩ := hfirst
  have hns : toks.head? ≠ some SET := by rw [h0]; simpa using hne
  refine ⟨toks.map (resolve ptr s_index), ?_, by simp, ?_, ?_⟩
  · rw [process_variable_replacement_eq toks rest ptr s_index hcap, if_neg hns]
  · intro i t hi hcase
    rw [List.getElem?_map, hi]
    simp only [Option.map_some', Option.some.injEq]
    rcases hcase with h | h
    · exact resolve_of_no_sigil ptr s_index t h
    · cases hm : last_match ptr t s_index with
      | none => exact resolve_of_no_match ptr s_index t hm
      | some j =>
        obtain ⟨hj, ⟨e, he, hn⟩, _⟩ := last_match_some ptr t s_index j hm
        exact absurd hn (h j e hj he)
  · intro hplain
    cases toks with
    | nil => simp at h0
    | cons u us =>
      simp only [List.head?_cons, Option.some.injEq] at h0
      subst h0
      have hmap : (u :: us).map (resolve ptr s_index) = u :: us := by
        conv_rhs => rw [← List.map_id (u :: us)]
        apply List.map_congr_left
        intro t ht
        exact resolve_of_no_sigil ptr s_index t (hplain t ht)
      have hu : resolve ptr s_index u = u :=
        resolve_of_no_sigil ptr s_index u (hplain u (by simp))
      rw [dispatch_not_set u us rest ptr s_index hcap hne, hmap, hu, if_pos hne]

/-- Witness of C5 on `ls -l`, with `$a` bound to `x`. -/
theorem replacement_passthrough_witness :
    (1 ≤ [Argument.mk ['$', 'a'] ['x']].length) ∧
    (∃ t0, [['l', 's'], ['-', 'l']].head? = some t0 ∧ t0 ≠ SET) ∧
    ∃ toks1, process_variable_replacement (argv_array [['l', 's'], ['-', 'l']] [])
          [['l', 's'], ['-', 'l']].length [Argument.mk ['$', 'a'] ['x']] 1
        = .ok (argv_array toks1 [])
      ∧ toks1.length = [['l', 's'], ['-', 'l']].length
      ∧ (∀ (i : Nat) (t : Token), [['l', 's'], ['-', 'l']][i]? = some t →
          (t.head? ≠ some '$' ∨
            ∀ k e, k < 1 → [Argument.mk ['$', 'a'] ['x']][k]? = some e → e.var_name ≠ t) →
          toks1[i]? = some t)
      ∧ ((∀ t ∈ [['l', 's'], ['-', 'l']], t.head? ≠ some '$') →
          dispatch (argv_array [['l', 's'], ['-', 'l']] []) [['l', 's'], ['-', 'l']].length
              [Argument.mk ['$', 'a'] ['x']] 1
            = .ok { args := argv_array [['l', 's'], ['-', 'l']] [],
                    arguments := [Argument.mk ['$', 'a'] ['x']], s_index := 1,
                    printed := [], executed := some [['l', 's'], ['-', 'l']] }) :=
  ⟨by decide, ⟨_, rfl, by decide⟩,
    replacement_passthrough [['l', 's'], ['-', 'l']] [] [Argument.mk ['$', 'a'] ['x']] 1
      (by decide) ⟨_, rfl, by decide⟩⟩

/-- C4, as the code has it. Binding round-trip for a name without `=`: when
the call on `set`, `n=v` succeeds, where `n` has no `=` and `v` neither begins
with `$` nor is `set`, then for all further tokens the dispatch of `n` followed
by them and the dispatch of `v` followed by them end in the same state: the
executor is invoked on the same argument vector, which begins with `v`, nothing
is printed and the table is the one the `set` left. -/
theorem binding_round_trip (n v : Token) (others : List Token) (junk rest : List Slot)
    (ptr ptr1 : List Argument) (s_index : Nat) (out : List String)
    (hn : '=' ∉ n) (hv : v.head? ≠ some '$') (hvset : v ≠ SET)
    (hset : process_set_command (argv_array [SET, n ++ '=' :: v] junk) ptr s_index
      = .ok (ptr1, s_index + 1, out)) :
    ∃ d, dispatch (argv_array (n :: others) rest) (n :: others).length ptr1 (s_index + 1) = .ok d
      ∧ dispatch (argv_array (v :: others) rest) (v :: others).length ptr1 (s_index + 1) = .ok d
      ∧ (∃ others1, d.executed = some (v :: others1))
      ∧ d.arguments = ptr1 ∧ d.s_index = s_index + 1 ∧ d.printed = [] := by
  rcases process_set_command_of_ok _ ptr s_index _ hset with
    e | ⟨t0, t1, _, h1, _, _, hs, _, hroom, e⟩
  · simp only [Prod.mk.injEq] at e
    omega
  · have ht1 : t1 = n ++ '=' :: v := by
      simp [argv_array] at h1
      exact h1.symm
    subst ht1
    simp only [Prod.mk.injEq, name_part_append n v hn, value_part_append n v hn] at e
    obtain ⟨e1, _, _⟩ := e
    have hnsig : n.head? = some '$' := by
      cases n with
      | nil => simp at hs
      | cons c cs => simpa using hs
    have hnset : n ≠ SET := by
      intro h; rw [h] at hnsig; exact absurd hnsig (by decide)
    have hcap : s_index + 1 ≤ ptr1.length := by rw [e1]; simp; omega
    have hentry : ptr1[s_index]? = some ⟨n, v⟩ := by
      rw [e1]; simp [List.getElem?_set, hroom]
    have hm : last_match ptr1 n (s_index + 1) = some s_index := by
      simp [last_match, hentry]
    have hrn : resolve ptr1 (s_index + 1) n = v :=
      resolve_of_match ptr1 (s_index + 1) n s_index ⟨n, v⟩ hnsig hm hentry
    have hrv : resolve ptr1 (s_index + 1) v = v := resolve_of_no_sigil ptr1 (s_index + 1) v hv
    refine ⟨_, dispatch_not_set n others rest ptr1 (s_index + 1) hcap hnset, ?_, ?_, rfl, rfl, rfl⟩
    · rw [dispatch_not_set v others rest ptr1 (s_index + 1) hcap hvset]
      simp [hrn, hrv]
    · simp [hrn, hvset]

/-- Witness of the amended C4, the one of the claim: `set $a=echo`, then
`$a hello` against `echo hello`. -/
theorem binding_round_trip_witness :
    ('=' ∉ ['$', 'a']) ∧ (['e', 'c', 'h', 'o'].head? ≠ some '$') ∧ (['e', 'c', 'h', 'o'] ≠ SET) ∧
    (process_set_command (argv_array [SET, ['$', 'a'] ++ '=' :: ['e', 'c', 'h', 'o']] [])
        [Argument.mk [] []] 0
      = .ok ([Argument.mk ['$', 'a'] ['e', 'c', 'h', 'o']], 0 + 1, [])) ∧
    ∃ d, dispatch (argv_array (['$', 'a'] :: [['h', 'e', 'l', 'l', 'o']]) [none])
          (['$', 'a'] :: [['h', 'e', 'l', 'l', 'o']]).length
          [Argument.mk ['$', 'a'] ['e', 'c', 'h', 'o']] (0 + 1) = .ok d
      ∧ dispatch (argv_array (['e', 'c', 'h', 'o'] :: [['h', 'e', 'l', 'l', 'o']]) [none])
          (['e', 'c', 'h', 'o'] :: [['h', 'e', 'l', 'l', 'o']]).length
          [Argument.mk ['$', 'a'] ['e', 'c', 'h', 'o']] (0 + 1) = .ok d
      ∧ (∃ others1, d.executed = some (['e', 'c', 'h', 'o'] :: others1))
      ∧ d.arguments = [Argument.mk ['$', 'a'] ['e', 'c', 'h', 'o']] ∧ d.s_index = 0 + 1
      ∧ d.printed = [] :=
  ⟨by decide, by decide, by decide, by decide,
    binding_round_trip ['$', 'a'] ['e', 'c', 'h', 'o'] [['h', 'e', 'l', 'l', 'o']] [] [none]
      [Argument.mk [] []] [Argument.mk ['$', 'a'] ['e', 'c', 'h', 'o']] 0 []
      (by decide) (by decide) (by decide) (by decide)⟩

/-- C4 fails as stated, for a name that has a `=` in it: `set $a=b=c` succeeds
and binds `$a` to `b=c`; after it the command `$a=b hello` hands the executor
`$a=b hello`, the command `c hello` hands it `c hello`. -/
theorem binding_round_trip_fails_on_eq_in_name :
    process_set_command (argv_array [SET, ['$', 'a', '=', 'b'] ++ '=' :: ['c']] [])
        [Argument.mk [] []] 0
      = .ok ([Argument.mk ['$', 'a'] ['b', '=', 'c']], 1, [])
    ∧ (dispatch (argv_array [['$', 'a', '=', 'b'], ['h', 'e', 'l', 'l', 'o']] [none]) 2
        [Argument.mk ['$', 'a'] ['b', '=', 'c']] 1).map (fun d => d.executed)
      = .ok (some [['$', 'a', '=', 'b'], ['h', 'e', 'l', 'l', 'o']])
    ∧ (dispatch (argv_array [['c'], ['h', 'e', 'l', 'l', 'o']] [none]) 2
        [Argument.mk ['$', 'a'] ['b', '=', 'c']] 1).map (fun d => d.executed)
      = .ok (some [['c'], ['h', 'e', 'l', 'l', 'o']]) := by
  decide

/-! ## Auxiliary facts: strtok and the runs of a line -/

theorem splitOnP_eq (p : Char → Bool) (s : List Char) :
    s.splitOnP p = match s.dropWhile (fun c => !p c) with
      | [] => [s]
      | _ :: r => s.takeWhile (fun c => !p c) :: r.splitOnP p := by
  induction s with
  | nil => simp
  | cons x xs ih =>
    rw [List.splitOnP_cons]
    by_cases hx : p x = true
    · simp [hx]
    · simp only [hx, Bool.false_eq_true, if_false, List.dropWhile_cons, Bool.not_eq_true] at ih ⊢
      have hx' : p x = false := by simpa using hx
      simp only [hx', Bool.not_false, if_true, List.takeWhile_cons]
      rw [ih]
      cases List.dropWhile (fun c => !p c) xs <;> simp [List.modifyHead]

theorem space_runs_nil : space_runs [] = [] := by
  simp [space_runs, List.splitOn]

theorem space_runs_space (s : List Char) : space_runs (' ' :: s) = space_runs s := by
  simp [space_runs, List.splitOn, List.splitOnP_cons]

theorem space_runs_dropWhile (s : List Char) :
    space_runs (s.dropWhile (fun c => c == ' ')) = space_runs s := by
  induction s with
  | nil => rfl
  | cons c cs ih =>
    by_cases hc : c = ' '
    · subst hc
      simp only [List.dropWhile_cons, beq_self_eq_true, if_true]
      rw [ih, space_runs_space]
    · simp [List.dropWhile_cons, hc]

/-- The runs of a line are what repeated calls of `strtok` return. -/
theorem space_runs_strtok (s : List Char) :
    space_runs s = match (strtok s).1 with
      | none => []
      | some t => t :: space_runs (strtok s).2 := by
  rw [← space_runs_dropWhile s]
  unfold strtok
  cases hs1 : s.dropWhile (fun c => c == ' ') with
  | nil => simp [space_runs_nil]
  | cons c s' =>
    have hc : (c == ' ') = false := by
      have := List.head_dropWhile_not (fun c => c == ' ') s
        (by rw [hs1]; simp)
      simpa [hs1] using this
    simp only [List.cons_ne_nil, if_false, reduceCtorEq]
    have hsplit := splitOnP_eq (fun x => x == ' ') (c :: s')
    have htake : List.takeWhile (fun x => x != ' ') (c :: s')
        = c :: List.takeWhile (fun x => x != ' ') s' := by
      simp [List.takeWhile_cons, bne, hc]
    have hfun : (fun x : Char => !(x == ' ')) = (fun x => x != ' ') := rfl
    rw [hfun] at hsplit
    conv_lhs => rw [space_runs, List.splitOn, hsplit]
    cases hd : List.dropWhile (fun x => x != ' ') (c :: s') with
    | nil =>
      have hall : List.takeWhile (fun x => x != ' ') (c :: s') = c :: s' := by
        have := List.takeWhile_append_dropWhile (fun x => x != ' ') (c :: s')
        rw [hd, List.append_nil] at this
        exact this
      simp [hall, space_runs_nil]
    | cons x r =>
      simp only [List.drop_succ_cons, List.drop_zero]
      rw [htake]
      simp [space_runs, List.splitOn]

theorem strtok_shorter (s : List Char) (t : Token) (h : (strtok s).1 = some t) :
    (strtok s).2.length < s.length := by
  unfold strtok at h ⊢
  cases hs1 : s.dropWhile (fun c => c == ' ') with
  | nil => simp [hs1] at h
  | cons c s' =>
    simp only [List.cons_ne_nil, if_false, reduceCtorEq]
    have h1 : (c :: s').length ≤ s.length := by
      rw [← hs1]
      exact (List.dropWhile_sublist _).length_le
    have h2 : (List.dropWhile (fun c => c != ' ') (c :: s')).length ≤ (c :: s').length :=
      (List.dropWhile_sublist _).length_le
    simp only [List.length_drop, List.length_cons] at h1 h2 ⊢
    omega

/-! ## Auxiliary facts: tokenize_input -/

theorem drop_succ_of_drop {α : Type} (l : List α) : ∀ (n : Nat) (x : α) (r : List α),
    l.drop n = x :: r → l.drop (n + 1) = r := by
  induction l with
  | nil => intro n x r h; simp at h
  | cons a l ih =>
    intro n x r h
    cases n with
    | zero =>
      simp only [List.drop_zero, List.cons.injEq] at h
      simp [h.2]
    | succ n =>
      simp only [List.drop_succ_cons] at h ⊢
      exact ih n x r h

/-- The loop of lines 231-237, entered on a token in slot `count`: it writes the
runs of the saved rest of the line behind that token, then `NULL`, and stops on
that `NULL`. -/
theorem tokenize_loop_eq (fuel : Nat) : ∀ (pre : List Slot) (t : Token) (free : List Slot)
    (arg_count : Nat) (saved : List Char),
    saved.length + 2 ≤ fuel → (space_runs saved).length + 1 ≤ free.length →
    tokenize_loop fuel (pre ++ some t :: free) pre.length arg_count saved
      = .ok (pre ++ some t :: ((space_runs saved).map some
                ++ none :: free.drop ((space_runs saved).length + 1)),
             pre.length + 1 + (space_runs saved).length,
             arg_count + 1 + (space_runs saved).length) := by
  induction fuel with
  | zero => intro pre t free arg_count saved h; omega
  | succ fuel ih =>
    intro pre t free arg_count saved hfuel hfree
    cases free with
    | nil => simp at hfree
    | cons f0 free1 =>
      have hstore : ∀ x : Slot, store (pre ++ some t :: f0 :: free1) (pre.length + 1) x
          = .ok ((pre ++ [some t]) ++ x :: free1) := by
        intro x
        have := store_middle (pre ++ [some t]) f0 x free1
        simpa using this
      rw [tokenize_loop, load_middle]
      simp only [bind, Except.bind, hstore]
      have hruns := space_runs_strtok saved
      cases htok : (strtok saved).1 with
      | none =>
        rw [htok] at hruns
        simp only at hruns
        rw [hruns]
        obtain ⟨fuel1, hf1⟩ : ∃ k, fuel = k + 1 := ⟨fuel - 1, by omega⟩
        subst hf1
        have hl := load_middle (pre ++ [some t]) (none : Slot) free1
        simp only [List.length_append, List.length_singleton] at hl
        rw [tokenize_loop, hl]
        simp [bind, Except.bind]
      | some t1 =>
        rw [htok] at hruns
        simp only at hruns
        have hshort := strtok_shorter saved t1 htok
        have hfree1 : (space_runs (strtok saved).2).length + 1 ≤ free1.length := by
          rw [hruns] at hfree
          simp only [List.length_cons] at hfree
          omega
        have := ih (pre ++ [some t]) t1 free1 (arg_count + 1) (strtok saved).2 (by omega) hfree1
        simp only [List.length_append, List.length_singleton] at this
        rw [this, hruns]
        simp [Nat.add_assoc, Nat.add_comm 1]
        omega

/-- The closed form of `tokenize_input` on a non-empty line whose tokens and
the two terminators the call writes fit the array. -/
theorem tokenize_input_eq (args : List Slot) (input : List Char) (hne : input ≠ [])
    (hfit : (space_runs (chomp input)).length + 2 ≤ args.length) :
    tokenize_input args input
      = .ok ((space_runs (chomp input)).map some
              ++ none :: none :: args.drop ((space_runs (chomp input)).length + 2),
             (space_runs (chomp input)).length) := by
  have hline : (if input.getLast? = some '\n' then input.dropLast else input) = chomp input := rfl
  have hlen : (chomp input).length ≤ input.length := by
    unfold chomp
    split
    · simp
    · exact Nat.le_refl _
  unfold tokenize_input
  rw [if_neg hne]
  simp only [hline]
  have hruns := space_runs_strtok (chomp input)
  cases args with
  | nil => simp at hfit
  | cons a0 args1 =>
    have hstore0 : ∀ x : Slot, store (a0 :: args1) 0 x = .ok (x :: args1) := by
      intro x; simp [store]
    simp only [hstore0, bind, Except.bind]
    cases htok : (strtok (chomp input)).1 with
    | none =>
      rw [htok] at hruns
      simp only at hruns
      rw [hruns] at hfit ⊢
      cases args1 with
      | nil => simp at hfit
      | cons a1 args2 =>
        simp [tokenize_loop, load, store, bind, Except.bind]
    | some t =>
      rw [htok] at hruns
      simp only at hruns
      have hshort := strtok_shorter (chomp input) t htok
      rw [hruns] at hfit
      simp only [List.length_cons] at hfit
      have hfit' : (space_runs (strtok (chomp input)).2).length + 1 ≤ args1.length := by
        omega
      have hloop := tokenize_loop_eq (input.length + 1) [] t args1 0 (strtok (chomp input)).2
        (by omega) hfit'
      simp only [List.nil_append, List.length_nil, Nat.zero_add] at hloop
      rw [hloop, hruns]
      simp only
      have hpos : 1 + (space_runs (strtok (chomp input)).2).length + 1
          = (some t :: (space_runs (strtok (chomp input)).2).map some ++ [none]).length := by
        simp; omega
      have hdrop : List.drop ((space_runs (strtok (chomp input)).2).length + 1) args1 ≠ [] := by
        intro h
        have := congrArg List.length h
        simp only [List.length_drop, List.length_nil] at this
        omega
      obtain ⟨f0, free1, hd⟩ := List.exists_cons_of_ne_nil hdrop
      have hd2 : List.drop ((t :: space_runs (strtok (chomp input)).2).length + 2) (a0 :: args1)
          = free1 := by
        have h1 : (t :: space_runs (strtok (chomp input)).2).length + 2
            = ((space_runs (strtok (chomp input)).2).length + 1 + 1) + 1 := by
          simp only [List.length_cons]
        rw [h1, List.drop_succ_cons]
        exact drop_succ_of_drop args1 _ f0 free1 hd
      rw [hd, hd2]
      have hs := store_middle
        (some t :: (space_runs (strtok (chomp input)).2).map some ++ [none]) f0 (none : Slot) free1
      rw [← hpos] at hs
      simp only [List.cons_append, List.append_assoc, List.singleton_append,
        List.nil_append] at hs
      rw [hs]
      simp
      omega

theorem load_error {α : Type} (buf : List α) (i : Nat) (e : Fault)
    (h : load buf i = .error e) : e = .out_of_bounds := by
  unfold load at h
  split at h
  · cases h
  · exact (Except.error.inj h).symm

theorem store_error {α : Type} (buf : List α) (i : Nat) (x : α) (e : Fault)
    (h : store buf i x = .error e) : e = .out_of_bounds := by
  unfold store at h
  split at h
  · cases h
  · exact (Except.error.inj h).symm

/-- The loop of lines 231-237 does not use up its bound when the bound exceeds
the length of the rest of the line by two. -/
theorem tokenize_loop_fuel (fuel : Nat) : ∀ (args : List Slot) (count arg_count : Nat)
    (saved : List Char), 1 ≤ fuel →
    (∀ t, args[count]? = some (some t) → saved.length + 2 ≤ fuel) →
    tokenize_loop fuel args count arg_count saved ≠ .error .fuel := by
  induction fuel with
  | zero => intro _ _ _ _ h; omega
  | succ fuel ih =>
    intro args count arg_count saved _ hsaved hres
    rw [tokenize_loop] at hres
    cases hl : load args count with
    | error e =>
      rw [hl] at hres
      have := load_error _ _ _ hl
      simp only [bind, Except.bind] at hres
      rw [this] at hres
      cases hres
    | ok a =>
      rw [hl] at hres
      simp only [bind, Except.bind] at hres
      cases a with
      | none => cases hres
      | some t =>
        simp only at hres
        have hb := hsaved t (load_of_ok _ _ _ hl)
        cases hs : store args (count + 1) (strtok saved).1 with
        | error e =>
          rw [hs] at hres
          have := store_error _ _ _ _ hs
          simp only at hres
          rw [this] at hres
          cases hres
        | ok args1 =>
          rw [hs] at hres
          simp only at hres
          obtain ⟨hlt, hset⟩ := store_of_ok _ _ _ _ hs
          refine ih args1 (count + 1) (arg_count + 1) (strtok saved).2 (by omega) ?_ hres
          intro t1 ht1
          rw [hset, List.getElem?_set, if_pos rfl, if_pos hlt] at ht1
          have := strtok_shorter saved t1 (Option.some.inj ht1)
          omega

/-- No call of `tokenize_input` ends on the loop bound of the embedding. -/
theorem tokenize_input_fuel (args : List Slot) (input : List Char) :
    tokenize_input args input ≠ .error .fuel := by
  intro hres
  unfold tokenize_input at hres
  split at hres
  · cases hres
  · have hlen : (if input.getLast? = some '\n' then input.dropLast else input).length
        ≤ input.length := by
      split
      · simp
      · exact Nat.le_refl _
    simp only at hres
    generalize (if input.getLast? = some '\n' then input.dropLast else input) = line
      at hres hlen
    cases hs : store args 0 (strtok line).1 with
    | error e =>
      rw [hs] at hres
      have := store_error _ _ _ _ hs
      simp only [bind, Except.bind] at hres
      rw [this] at hres
      cases hres
    | ok args1 =>
      rw [hs] at hres
      simp only [bind, Except.bind] at hres
      obtain ⟨hlt, hset⟩ := store_of_ok _ _ _ _ hs
      cases hloop : tokenize_loop (input.length + 1) args1 0 0 (strtok line).2 with
      | error e =>
        rw [hloop] at hres
        simp only at hres
        have he : e = .fuel := Except.error.inj hres
        rw [he] at hloop
        refine tokenize_loop_fuel (input.length + 1) args1 0 0 (strtok line).2 (by omega) ?_ hloop
        intro t ht
        rw [hset, List.getElem?_set, if_pos rfl, if_pos hlt] at ht
        have := strtok_shorter line t (Option.some.inj ht)
        omega
      | ok r =>
        rw [hloop] at hres
        simp only at hres
        cases hs2 : store r.1 (r.2.1 + 1) none with
        | error e =>
          rw [hs2] at hres
          have := store_error _ _ _ _ hs2
          simp only at hres
          rw [this] at hres
          cases hres
        | ok args2 =>
          rw [hs2] at hres
          cases hres

/-! ## Claims on tokenize_input -/

/-- C9. On a non-empty line whose tokens, with the two terminators the call
writes behind them, fit the array, `tokenize_input` returns the number of
maximal runs of non-space characters of the line without its trailing
newline, leaves those runs in order in the slots below that number and `NULL`
in the slot of that number, so that the sequence up to the first `NULL` is the
line's tokens. -/
theorem tokenize_input_runs (args : List Slot) (input : List Char) (hne : input ≠ [])
    (hfit : (space_runs (chomp input)).length + 2 ≤ args.length) :
    ∃ args1, tokenize_input args input = .ok (args1, (space_runs (chomp input)).length)
      ∧ (∀ (i : Nat) (t : Token), (space_runs (chomp input))[i]? = some t →
          args1[i]? = some (some t))
      ∧ args1[(space_runs (chomp input)).length]? = some none
      ∧ argv_of args1 = .ok (space_runs (chomp input)) := by
  refine ⟨_, tokenize_input_eq args input hne hfit, ?_, ?_, ?_⟩
  · intro i t hi
    have hlt : i < (space_runs (chomp input)).length := by
      rcases Nat.lt_or_ge i (space_runs (chomp input)).length with h | h
      · exact h
      · rw [List.getElem?_eq_none h] at hi; cases hi
    rw [List.getElem?_append_left (by simpa using hlt), List.getElem?_map, hi]
    rfl
  · rw [List.getElem?_append_right (by simp)]
    simp
  · exact argv_of_argv_array _ _

/-- Witness of C9 on the line `ls -l` with its newline and the array of `main`. -/
theorem tokenize_input_runs_witness :
    (['l', 's', ' ', '-', 'l', '\n'] ≠ []) ∧
    ((space_runs (chomp ['l', 's', ' ', '-', 'l', '\n'])).length + 2
      ≤ (List.replicate ARG_LENGTH (none : Slot)).length) ∧
    space_runs (chomp ['l', 's', ' ', '-', 'l', '\n']) = [['l', 's'], ['-', 'l']] ∧
    ∃ args1, tokenize_input (List.replicate ARG_LENGTH none) ['l', 's', ' ', '-', 'l', '\n']
        = .ok (args1, (space_runs (chomp ['l', 's', ' ', '-', 'l', '\n'])).length)
      ∧ (∀ (i : Nat) (t : Token),
          (space_runs (chomp ['l', 's', ' ', '-', 'l', '\n']))[i]? = some t →
          args1[i]? = some (some t))
      ∧ args1[(space_runs (chomp ['l', 's', ' ', '-', 'l', '\n'])).length]? = some none
      ∧ argv_of args1 = .ok (space_runs (chomp ['l', 's', ' ', '-', 'l', '\n'])) :=
  ⟨by decide, by decide, by decide,
    tokenize_input_runs (List.replicate ARG_LENGTH none) ['l', 's', ' ', '-', 'l', '\n']
      (by decide) (by decide)⟩

/-- C10, as the code has it. When a line of fewer tokens is tokenized into the
array a longer line was tokenized into (both within capacity), the slots at the
second line's token count and right behind it hold `NULL`, so the sequence up
to the first `NULL` is the second line's tokens; every slot further out keeps
what the first call left in it. -/
theorem tokenize_input_terminates_short_line (args : List Slot) (line1 line2 : List Char)
    (h1 : line1 ≠ []) (h2 : line2 ≠ [])
    (hmore : (space_runs (chomp line2)).length < (space_runs (chomp line1)).length)
    (hfit : (space_runs (chomp line1)).length + 2 ≤ args.length) :
    ∃ args1 args2,
      tokenize_input args line1 = .ok (args1, (space_runs (chomp line1)).length)
      ∧ tokenize_input args1 line2 = .ok (args2, (space_runs (chomp line2)).length)
      ∧ args2[(space_runs (chomp line2)).length]? = some none
      ∧ args2[(space_runs (chomp line2)).length + 1]? = some none
      ∧ argv_of args2 = .ok (space_runs (chomp line2))
      ∧ ∀ (i : Nat), (space_runs (chomp line2)).length + 2 ≤ i → args2[i]? = args1[i]? := by
  have e1 := tokenize_input_eq args line1 h1 hfit
  have hlen1 : ((space_runs (chomp line1)).map some
      ++ none :: none :: args.drop ((space_runs (chomp line1)).length + 2)).length
      = args.length := by
    simp only [List.length_append, List.length_map, List.length_cons, List.length_drop]
    omega
  have e2 := tokenize_input_eq _ line2 h2 (by rw [hlen1]; omega)
  refine ⟨_, _, e1, e2, ?_, ?_, argv_of_argv_array _ _, ?_⟩
  · rw [List.getElem?_append_right (by simp)]
    simp
  · rw [List.getElem?_append_right (by simp)]
    simp
  · intro i hi
    rw [List.getElem?_append_right (by simp; omega)]
    obtain ⟨k, hk⟩ : ∃ k, i = (space_runs (chomp line2)).length + 2 + k :=
      ⟨i - ((space_runs (chomp line2)).length + 2), by omega⟩
    subst hk
    simp only [List.length_map]
    have : (space_runs (chomp line2)).length + 2 + k - (space_runs (chomp line2)).length
        = k + 1 + 1 := by omega
    rw [this, List.getElem?_cons_succ, List.getElem?_cons_succ, List.getElem?_drop]

/-- Witness of the amended C10 on the lines `a b c d e` and `x y`. -/
theorem tokenize_input_terminates_short_line_witness :
    (space_runs (chomp ['x', ' ', 'y', '\n'])).length
      < (space_runs (chomp ['a', ' ', 'b', ' ', 'c', ' ', 'd', ' ', 'e', '\n'])).length ∧
    ∃ args1 args2,
      tokenize_input (List.replicate ARG_LENGTH none)
          ['a', ' ', 'b', ' ', 'c', ' ', 'd', ' ', 'e', '\n']
        = .ok (args1, (space_runs (chomp ['a', ' ', 'b', ' ', 'c', ' ', 'd', ' ', 'e', '\n'])).length)
      ∧ tokenize_input args1 ['x', ' ', 'y', '\n']
        = .ok (args2, (space_runs (chomp ['x', ' ', 'y', '\n'])).length)
      ∧ args2[(space_runs (chomp ['x', ' ', 'y', '\n'])).length]? = some none
      ∧ args2[(space_runs (chomp ['x', ' ', 'y', '\n'])).length + 1]? = some none
      ∧ argv_of args2 = .ok (space_runs (chomp ['x', ' ', 'y', '\n']))
      ∧ ∀ (i : Nat), (space_runs (chomp ['x', ' ', 'y', '\n'])).length + 2 ≤ i →
          args2[i]? = args1[i]? :=
  ⟨by decide,
    tokenize_input_terminates_short_line (List.replicate ARG_LENGTH none)
      ['a', ' ', 'b', ' ', 'c', ' ', 'd', ' ', 'e', '\n'] ['x', ' ', 'y', '\n']
      (by decide) (by decide) (by decide) (by decide)⟩

/-- C10 fails as stated: after `a b c d e` and then `x y` are tokenized into
the array of `main`, the second call returns 2, and slot 4, which is beyond
that count, is not `NULL`: it still holds the token `e` of the first line. -/
theorem tokenize_input_keeps_stale_slot :
    tokenize_input (List.replicate ARG_LENGTH none)
        ['a', ' ', 'b', ' ', 'c', ' ', 'd', ' ', 'e', '\n']
      = .ok ([some ['a'], some ['b'], some ['c'], some ['d'], some ['e'],
              none, none, none, none, none], 5)
    ∧ tokenize_input [some ['a'], some ['b'], some ['c'], some ['d'], some ['e'],
              none, none, none, none, none] ['x', ' ', 'y', '\n']
      = .ok ([some ['x'], some ['y'], none, none, some ['e'],
              none, none, none, none, none], 2)
    ∧ [some ['x'], some ['y'], none, none, some ['e'],
              none, none, none, none, (none : Slot)][4]? ≠ some none := by
  decide

/-! ## Further claims on process_set_command and the substitution -/

/-- C14. Substitution is single-pass. On a command whose first token is not
`set`, each token of the result is the last-wins lookup of the token at the same
position, a function of that token and of the table alone; so a token `n`
whose last binding has the value `v` becomes `v` and stays `v`, also when `v`
begins with `$` and is itself the name of a binding with some value `w`. -/
theorem replacement_single_pass (toks : List Token) (rest : List Slot) (ptr : List Argument)
    (s_index : Nat) (hcap : s_index ≤ ptr.length) (hfirst : toks.head? ≠ some SET) :
    ∃ toks1, process_variable_replacement (argv_array toks rest) toks.length ptr s_index
        = .ok (argv_array toks1 rest)
      ∧ toks1 = toks.map (resolve ptr s_index)
      ∧ ∀ (i j k : Nat) (n v w : Token), toks[i]? = some n → n.head? = some '$' →
          j < s_index → ptr[j]? = some { var_name := n, var_value := v } →
          (∀ m e, j < m → m < s_index → ptr[m]? = some e → e.var_name ≠ n) →
          v.head? = some '$' → k < s_index → ptr[k]? = some { var_name := v, var_value := w } →
          toks1[i]? = some v := by
  refine ⟨toks.map (resolve ptr s_index), ?_, rfl, ?_⟩
  · rw [process_variable_replacement_eq toks rest ptr s_index hcap, if_neg hfirst]
  · intro i j k n v w hi hsig hj hjn hlast _ _ _
    have hm := last_match_greatest ptr n s_index j _ hj hjn rfl hlast
    rw [List.getElem?_map, hi]
    simp [resolve_of_match ptr s_index n j _ hsig hm hjn]

/-- Witness of C14: `$a` is bound to `$b` and `$b` to `ls`; in `echo $a` the
token `$a` becomes `$b`, not `ls`. -/
theorem replacement_single_pass_witness :
    (2 ≤ [Argument.mk ['$', 'b'] ['l', 's'], Argument.mk ['$', 'a'] ['$', 'b']].length) ∧
    ([['e', 'c', 'h', 'o'], ['$', 'a']].head? ≠ some SET) ∧
    (process_variable_replacement (argv_array [['e', 'c', 'h', 'o'], ['$', 'a']] []) 2
        [Argument.mk ['$', 'b'] ['l', 's'], Argument.mk ['$', 'a'] ['$', 'b']] 2
      = .ok (argv_array [['e', 'c', 'h', 'o'], ['$', 'b']] [])) ∧
    ∃ toks1, process_variable_replacement (argv_array [['e', 'c', 'h', 'o'], ['$', 'a']] [])
          [['e', 'c', 'h', 'o'], ['$', 'a']].length
          [Argument.mk ['$', 'b'] ['l', 's'], Argument.mk ['$', 'a'] ['$', 'b']] 2
        = .ok (argv_array toks1 [])
      ∧ toks1 = [['e', 'c', 'h', 'o'], ['$', 'a']].map
          (resolve [Argument.mk ['$', 'b'] ['l', 's'], Argument.mk ['$', 'a'] ['$', 'b']] 2)
      ∧ ∀ (i j k : Nat) (n v w : Token), [['e', 'c', 'h', 'o'], ['$', 'a']][i]? = some n →
          n.head? = some '$' → j < 2 →
          [Argument.mk ['$', 'b'] ['l', 's'], Argument.mk ['$', 'a'] ['$', 'b']][j]?
            = some { var_name := n, var_value := v } →
          (∀ m e, j < m → m < 2 →
            [Argument.mk ['$', 'b'] ['l', 's'], Argument.mk ['$', 'a'] ['$', 'b']][m]? = some e →
            e.var_name ≠ n) →
          v.head? = some '$' → k < 2 →
          [Argument.mk ['$', 'b'] ['l', 's'], Argument.mk ['$', 'a'] ['$', 'b']][k]?
            = some { var_name := v, var_value := w } →
          toks1[i]? = some v :=
  ⟨by decide, by decide, by decide,
    replacement_single_pass [['e', 'c', 'h', 'o'], ['$', 'a']] []
      [Argument.mk ['$', 'b'] ['l', 's'], Argument.mk ['$', 'a'] ['$', 'b']] 2
      (by decide) (by decide)⟩

/-- C15, as the code has it. On the two tokens `set`, `arg`, where `arg` is
shorter than 50 characters, begins with `$` and has more than one `=`, the call
accepts (in a table with room): it splits `arg` at its first `=`; the name it
stores has no `=`, the value has the further ones. -/
theorem process_set_command_accepts_further_eq (arg : Token) (rest : List Slot)
    (arguments : List Argument) (s_index : Nat)
    (hlen : arg.length < MAX_LENGTH) (hsig : arg.head? = some '$')
    (hmany : 1 < arg.count '=') (hroom : s_index < arguments.length) :
    process_set_command (argv_array [SET, arg] rest) arguments s_index
        = .ok (arguments.set s_index ⟨name_part arg, value_part arg⟩, s_index + 1, [])
    ∧ arg = name_part arg ++ '=' :: value_part arg
    ∧ '=' ∉ name_part arg ∧ '=' ∈ value_part arg := by
  have hmem : '=' ∈ arg := List.count_pos_iff.mp (by omega)
  have hsplit := split_at_eq arg hmem
  have hno := name_part_no_eq arg
  refine ⟨?_, hsplit, hno, ?_⟩
  · rw [process_set_command_two, set_two_tokens_eq SET arg arguments s_index hlen,
      if_pos ⟨rfl, hsig, hmem⟩, store_ok _ _ _ hroom]
    rfl
  · have hc : (name_part arg ++ '=' :: value_part arg).count '=' = arg.count '=' := by
      rw [← hsplit]
    rw [List.count_append, List.count_cons_self, List.count_eq_zero_of_not_mem hno] at hc
    exact List.count_pos_iff.mp (by omega)

/-- Witness of the amended C15 on `set $a=b=c`. -/
theorem process_set_command_accepts_further_eq_witness :
    (['$', 'a', '=', 'b', '=', 'c'].length < MAX_LENGTH) ∧
    (['$', 'a', '=', 'b', '=', 'c'].head? = some '$') ∧
    (1 < ['$', 'a', '=', 'b', '=', 'c'].count '=') ∧
    (0 < [Argument.mk [] []].length) ∧
    (process_set_command (argv_array [SET, ['$', 'a', '=', 'b', '=', 'c']] [])
        [Argument.mk [] []] 0
        = .ok ([Argument.mk [] []].set 0
            ⟨name_part ['$', 'a', '=', 'b', '=', 'c'],
             value_part ['$', 'a', '=', 'b', '=', 'c']⟩, 0 + 1, [])
    ∧ ['$', 'a', '=', 'b', '=', 'c']
        = name_part ['$', 'a', '=', 'b', '=', 'c']
          ++ '=' :: value_part ['$', 'a', '=', 'b', '=', 'c']
    ∧ '=' ∉ name_part ['$', 'a', '=', 'b', '=', 'c']
    ∧ '=' ∈ value_part ['$', 'a', '=', 'b', '=', 'c']) :=
  ⟨by decide, by decide, by decide, by decide,
    process_set_command_accepts_further_eq ['$', 'a', '=', 'b', '=', 'c'] []
      [Argument.mk [] []] 0 (by decide) (by decide) (by decide) (by decide)⟩

/-- C15 fails as stated: `set $a=b=c`, whose argument has two `=`, is not
rejected on the empty table of capacity one; it returns size 1 and stores the
name `$a` with the value `b=c`, which has a `=` in it. -/
theorem process_set_command_two_eq_not_rejected :
    process_set_command (argv_array [SET, ['$', 'a', '=', 'b', '=', 'c']] [])
        [Argument.mk [] []] 0
      = .ok ([Argument.mk ['$', 'a'] ['b', '=', 'c']], 1, [])
    ∧ process_set_command (argv_array [SET, ['$', 'a', '=', 'b', '=', 'c']] [])
        [Argument.mk [] []] 0
      ≠ .ok ([Argument.mk [] []], 0, [INVALID_NOTICE])
    ∧ '=' ∈ (Argument.mk ['$', 'a'] ['b', '=', 'c']).var_value := by
  decide

/-- C19. Empty name. On the two tokens `set`, `$=v` (shorter than 50 characters,
table with room) the call succeeds and stores the binding of the name `$` to
`v`; a later token `$`, in a command that does not begin with `set`, is
replaced by `v`; the bare `$` is rejected; and no other argument that begins
with `$` and has a `=` is rejected, whatever stands before the `=`. -/
theorem process_set_command_empty_name (v : Token) (rest : List Slot)
    (arguments : List Argument) (s_index : Nat)
    (hlen : ('$' :: '=' :: v).length < MAX_LENGTH) (hroom : s_index < arguments.length) :
    process_set_command (argv_array [SET, '$' :: '=' :: v] rest) arguments s_index
        = .ok (arguments.set s_index { var_name := ['$'], var_value := v }, s_index + 1, [])
    ∧ (∀ (toks : List Token) (rest1 : List Slot) (i : Nat), toks.head? ≠ some SET →
        toks[i]? = some ['$'] →
        ∃ args1, process_variable_replacement (argv_array toks rest1) toks.length
            (arguments.set s_index { var_name := ['$'], var_value := v }) (s_index + 1)
          = .ok args1 ∧ args1[i]? = some (some v))
    ∧ process_set_command (argv_array [SET, ['$']] rest) arguments s_index
        = .ok (arguments, s_index, [INVALID_NOTICE])
    ∧ (∀ arg : Token, arg.head? = some '$' → '=' ∈ arg → arg.length < MAX_LENGTH →
        process_set_command (argv_array [SET, arg] rest) arguments s_index
          = .ok (arguments.set s_index ⟨name_part arg, value_part arg⟩, s_index + 1, [])) := by
  have hacc : ∀ arg : Token, arg.head? = some '$' → '=' ∈ arg → arg.length < MAX_LENGTH →
      process_set_command (argv_array [SET, arg] rest) arguments s_index
        = .ok (arguments.set s_index ⟨name_part arg, value_part arg⟩, s_index + 1, []) := by
    intro arg hs he hl
    rw [process_set_command_two, set_two_tokens_eq SET arg arguments s_index hl,
      if_pos ⟨rfl, hs, he⟩, store_ok _ _ _ hroom]
    rfl
  have hn : name_part ('$' :: '=' :: v) = ['$'] :=
    name_part_append ['$'] v (by decide)
  have hv : value_part ('$' :: '=' :: v) = v :=
    value_part_append ['$'] v (by decide)
  refine ⟨?_, ?_, ?_, hacc⟩
  · have := hacc ('$' :: '=' :: v) rfl (by simp) hlen
    rw [hn, hv] at this
    exact this
  · intro toks rest1 i hfirst hi
    have hcap : s_index + 1 ≤ (arguments.set s_index
        { var_name := ['$'], var_value := v }).length := by simp; omega
    have hentry : (arguments.set s_index { var_name := ['$'], var_value := v })[s_index]?
        = some { var_name := ['$'], var_value := v } := by
      simp [List.getElem?_set, hroom]
    have hm : last_match (arguments.set s_index { var_name := ['$'], var_value := v }) ['$']
        (s_index + 1) = some s_index := by
      simp [last_match, hentry]
    refine ⟨_, process_variable_replacement_eq toks rest1 _ (s_index + 1) hcap, ?_⟩
    rw [if_neg hfirst]
    have hi' : i < toks.length := by
      rcases Nat.lt_or_ge i toks.length with h | h
      · exact h
      · rw [List.getElem?_eq_none h] at hi; cases hi
    unfold argv_array
    rw [List.getElem?_append_left (by simpa using hi')]
    simp [List.getElem?_map, hi, resolve_of_match _ (s_index + 1) ['$'] s_index _ rfl hm hentry]
  · rw [process_set_command_two, set_two_tokens_eq SET ['$'] arguments s_index (by decide),
      if_neg (by decide)]

/-- Witness of C19 on `set $=ls` and the empty table of capacity one. -/
theorem process_set_command_empty_name_witness :
    (('$' :: '=' :: ['l', 's']).length < MAX_LENGTH) ∧ (0 < [Argument.mk [] []].length) ∧
    (process_set_command (argv_array [SET, '$' :: '=' :: ['l', 's']] []) [Argument.mk [] []] 0
        = .ok ([Argument.mk [] []].set 0 { var_name := ['$'], var_value := ['l', 's'] },
            0 + 1, [])
    ∧ (∀ (toks : List Token) (rest1 : List Slot) (i : Nat), toks.head? ≠ some SET →
        toks[i]? = some ['$'] →
        ∃ args1, process_variable_replacement (argv_array toks rest1) toks.length
            ([Argument.mk [] []].set 0 { var_name := ['$'], var_value := ['l', 's'] }) (0 + 1)
          = .ok args1 ∧ args1[i]? = some (some ['l', 's']))
    ∧ process_set_command (argv_array [SET, ['$']] []) [Argument.mk [] []] 0
        = .ok ([Argument.mk [] []], 0, [INVALID_NOTICE])
    ∧ (∀ arg : Token, arg.head? = some '$' → '=' ∈ arg → arg.length < MAX_LENGTH →
        process_set_command (argv_array [SET, arg] []) [Argument.mk [] []] 0
          = .ok ([Argument.mk [] []].set 0 ⟨name_part arg, value_part arg⟩, 0 + 1, []))) :=
  ⟨by decide, by decide,
    process_set_command_empty_name ['l', 's'] [] [Argument.mk [] []] 0 (by decide) (by decide)⟩

/-! ## Auxiliary facts: the tokens of a line -/

theorem strtok_token (s : List Char) (t : Token) (h : (strtok s).1 = some t) :
    t ≠ [] ∧ ' ' ∉ t ∧ t.length ≤ s.length := by
  unfold strtok at h
  cases hs1 : s.dropWhile (fun c => c == ' ') with
  | nil => simp [hs1] at h
  | cons c s' =>
    have hc : (c == ' ') = false := by
      have := List.head_dropWhile_not (fun c => c == ' ') s (by rw [hs1]; simp)
      simpa [hs1] using this
    simp only [hs1, List.cons_ne_nil, if_false, reduceCtorEq, Option.some.injEq] at h
    have h1 : (c :: s').length ≤ s.length := by
      rw [← hs1]
      exact (List.dropWhile_sublist _).length_le
    have h2 : t.length ≤ (c :: s').length := by
      rw [← h]
      exact (List.takeWhile_sublist _).length_le
    refine ⟨?_, ?_, by omega⟩
    · rw [← h]
      simp [List.takeWhile_cons, bne, hc]
    · intro hm
      rw [← h] at hm
      have := List.mem_takeWhile_imp hm
      simp at this

theorem filter_dropWhile_spaces (s : List Char) :
    (s.dropWhile (fun c => c == ' ')).filter (fun c => c != ' ')
      = s.filter (fun c => c != ' ') := by
  induction s with
  | nil => rfl
  | cons c cs ih =>
    by_cases hc : c = ' '
    · subst hc
      simp only [List.dropWhile_cons, beq_self_eq_true, if_true]
      rw [ih]
      simp
    · simp [List.dropWhile_cons, hc]

theorem strtok_filter (s : List Char) :
    s.filter (fun c => c != ' ')
      = match (strtok s).1 with
        | none => []
        | some t => t ++ (strtok s).2.filter (fun c => c != ' ') := by
  rw [← filter_dropWhile_spaces s]
  unfold strtok
  cases hs1 : s.dropWhile (fun c => c == ' ') with
  | nil => simp
  | cons c s' =>
    simp only [List.cons_ne_nil, if_false, reduceCtorEq]
    conv_lhs => rw [← List.takeWhile_append_dropWhile (fun x => x != ' ') (c :: s')]
    rw [List.filter_append]
    have h1 : List.filter (fun c => c != ' ') (List.takeWhile (fun x => x != ' ') (c :: s'))
        = List.takeWhile (fun x => x != ' ') (c :: s') := by
      rw [List.filter_eq_self]
      intro a ha
      have := List.mem_takeWhile_imp ha
      simpa using this
    rw [h1]
    congr 1
    cases hd : List.dropWhile (fun x => x != ' ') (c :: s') with
    | nil => rfl
    | cons x r =>
      have hx : (x != ' ') = false := by
        have := List.head_dropWhile_not (fun x => x != ' ') (c :: s') (by rw [hd]; simp)
        simpa [hd] using this
      simp [List.filter_cons, hx]

theorem space_runs_mem_aux (n : Nat) : ∀ s : List Char, s.length ≤ n →
    ∀ t ∈ space_runs s, t ≠ [] ∧ ' ' ∉ t ∧ t.length ≤ s.length := by
  induction n with
  | zero =>
    intro s hs t ht
    have : s = [] := List.length_eq_zero.mp (by omega)
    subst this
    rw [space_runs_nil] at ht
    simp at ht
  | succ n ih =>
    intro s hs t ht
    rw [space_runs_strtok s] at ht
    cases htok : (strtok s).1 with
    | none => rw [htok] at ht; simp at ht
    | some t1 =>
      rw [htok] at ht
      simp only [List.mem_cons] at ht
      have hshort := strtok_shorter s t1 htok
      rcases ht with h | h
      · rw [h]; exact strtok_token s t1 htok
      · obtain ⟨h1, h2, h3⟩ := ih (strtok s).2 (by omega) t h
        exact ⟨h1, h2, by omega⟩

/-- Every token of a line is non-empty, has no space in it and is not longer
than the line. -/
theorem space_runs_mem (s : List Char) :
    ∀ t ∈ space_runs s, t ≠ [] ∧ ' ' ∉ t ∧ t.length ≤ s.length :=
  space_runs_mem_aux s.length s (Nat.le_refl _)

theorem space_runs_join_aux (n : Nat) : ∀ s : List Char, s.length ≤ n →
    (space_runs s).flatten = s.filter (fun c => c != ' ') := by
  induction n with
  | zero =>
    intro s hs
    have : s = [] := List.length_eq_zero.mp (by omega)
    subst this
    rw [space_runs_nil]
    rfl
  | succ n ih =>
    intro s hs
    rw [space_runs_strtok s, strtok_filter s]
    cases htok : (strtok s).1 with
    | none => rfl
    | some t1 =>
      have hshort := strtok_shorter s t1 htok
      simp only [List.flatten_cons]
      rw [ih (strtok s).2 (by omega)]

/-- The tokens of a line, one behind the other, are the line without its spaces. -/
theorem space_runs_join (s : List Char) :
    (space_runs s).flatten = s.filter (fun c => c != ' ') :=
  space_runs_join_aux s.length s (Nat.le_refl _)

theorem space_runs_all_spaces (s : List Char) (h : ∀ c ∈ s, c = ' ') : space_runs s = [] := by
  induction s with
  | nil => exact space_runs_nil
  | cons c cs ih =>
    have hc : c = ' ' := h c (by simp)
    subst hc
    rw [space_runs_space]
    exact ih (fun c hc => h c (by simp [hc]))

theorem chomp_length (s : List Char) : (chomp s).length ≤ s.length := by
  unfold chomp
  split
  · simp
  · exact Nat.le_refl _

theorem splitOnP_append_sep (p : Char → Bool) (a b : List Char) (x : Char)
    (hx : p x = true) : (a ++ x :: b).splitOnP p = a.splitOnP p ++ b.splitOnP p := by
  induction a with
  | nil => simp [List.splitOnP_cons, hx]
  | cons c a ih =>
    simp only [List.cons_append, List.splitOnP_cons, ih]
    split
    · rfl
    · have hne := List.splitOnP_ne_nil p a
      cases h : List.splitOnP p a with
      | nil => exact absurd h hne
      | cons y ys => rfl

/-- Every space is a boundary: the tokens of a line that has a space at some
place are the tokens before that space, then the tokens behind it. -/
theorem space_runs_append_space (a b : List Char) :
    space_runs (a ++ ' ' :: b) = space_runs a ++ space_runs b := by
  simp only [space_runs, List.splitOn]
  rw [splitOnP_append_sep (fun x => x == ' ') a b ' ' (by simp), List.filter_append]

/-- Nothing but a space is a boundary: a non-empty line without a space is one token. -/
theorem space_runs_no_space (s : List Char) (hne : s ≠ []) (h : ' ' ∉ s) :
    space_runs s = [s] := by
  simp only [space_runs, List.splitOn]
  rw [List.splitOnP_eq_single]
  · simp [hne]
  · intro x hx hp
    have : x = ' ' := by simpa using hp
    exact h (this ▸ hx)

/-! ## Further claims on tokenize_input -/

/-- C17, evaluated. The line `1 2 3 4 5 6 7 8 9` has nine tokens; tokenized into
the array of `main`, of `ARG_LENGTH` slots, the call writes outside the array;
in an array one slot longer it ends, and the slot it wrote last is slot 10. -/
theorem tokenize_input_nine_tokens :
    (space_runs (chomp ['1', ' ', '2', ' ', '3', ' ', '4', ' ', '5', ' ', '6', ' ', '7', ' ',
        '8', ' ', '9', '\n'])).length = 9
    ∧ tokenize_input (List.replicate ARG_LENGTH (some ['J']))
        ['1', ' ', '2', ' ', '3', ' ', '4', ' ', '5', ' ', '6', ' ', '7', ' ',
          '8', ' ', '9', '\n']
      = .error .out_of_bounds
    ∧ tokenize_input (List.replicate (ARG_LENGTH + 1) (some ['J']))
        ['1', ' ', '2', ' ', '3', ' ', '4', ' ', '5', ' ', '6', ' ', '7', ' ',
          '8', ' ', '9', '\n']
      = .ok ([some ['1'], some ['2'], some ['3'], some ['4'], some ['5'], some ['6'],
              some ['7'], some ['8'], some ['9'], none, none], 9) := by
  decide

/-- C18, as the code has it. The space is the sole delimiter. On a non-empty
line whose tokens fit the array, the tokens `tokenize_input` leaves are the
maximal runs of non-space characters of the line without its trailing newline:
the non-empty pieces the line falls into when it is cut at every space. So
every space is a token boundary (the tokens of a line with a space at some
place are the tokens before it, then the tokens behind it), and no other
character is (a line without a space, whatever else it has in it, a tab
included, is one token); no token has a space in it, none is empty, and the
tokens, one behind the other, are the line without its spaces. -/
theorem tokenize_input_splits_on_space (args : List Slot) (input : List Char)
    (hne : input ≠ [])
    (hfit : (space_runs (chomp input)).length + 2 ≤ args.length) :
    ∃ args1 toks, tokenize_input args input = .ok (args1, toks.length)
      ∧ argv_of args1 = .ok toks
      ∧ toks = space_runs (chomp input)
      ∧ toks = ((chomp input).splitOn ' ').filter (fun t => !t.isEmpty)
      ∧ (∀ a b, chomp input = a ++ ' ' :: b → toks = space_runs a ++ space_runs b)
      ∧ (chomp input ≠ [] → ' ' ∉ chomp input → toks = [chomp input])
      ∧ (∀ t ∈ toks, t ≠ [] ∧ ' ' ∉ t)
      ∧ toks.flatten = (chomp input).filter (fun c => c != ' ') := by
  refine ⟨_, space_runs (chomp input), tokenize_input_eq args input hne hfit,
    argv_of_argv_array _ _, rfl, rfl, ?_, space_runs_no_space _, ?_, space_runs_join _⟩
  · intro a b hab
    rw [hab]
    exact space_runs_append_space a b
  · intro t ht
    obtain ⟨h1, h2, _⟩ := space_runs_mem (chomp input) t ht
    exact ⟨h1, h2⟩

/-- Witness of the amended C18 on `ls -l` with its newline, which falls into
`ls` and `-l`. -/
theorem tokenize_input_splits_on_space_witness :
    (['l', 's', ' ', '-', 'l', '\n'] ≠ []) ∧
    ((space_runs (chomp ['l', 's', ' ', '-', 'l', '\n'])).length + 2
      ≤ (List.replicate ARG_LENGTH (none : Slot)).length) ∧
    (space_runs (chomp ['l', 's', ' ', '-', 'l', '\n']) = [['l', 's'], ['-', 'l']]) ∧
    ∃ args1 toks, tokenize_input (List.replicate ARG_LENGTH none)
          ['l', 's', ' ', '-', 'l', '\n'] = .ok (args1, toks.length)
      ∧ argv_of args1 = .ok toks
      ∧ toks = space_runs (chomp ['l', 's', ' ', '-', 'l', '\n'])
      ∧ toks = ((chomp ['l', 's', ' ', '-', 'l', '\n']).splitOn ' ').filter
          (fun t => !t.isEmpty)
      ∧ (∀ a b, chomp ['l', 's', ' ', '-', 'l', '\n'] = a ++ ' ' :: b →
          toks = space_runs a ++ space_runs b)
      ∧ (chomp ['l', 's', ' ', '-', 'l', '\n'] ≠ [] →
          ' ' ∉ chomp ['l', 's', ' ', '-', 'l', '\n'] →
          toks = [chomp ['l', 's', ' ', '-', 'l', '\n']])
      ∧ (∀ t ∈ toks, t ≠ [] ∧ ' ' ∉ t)
      ∧ toks.flatten = (chomp ['l', 's', ' ', '-', 'l', '\n']).filter (fun c => c != ' ') :=
  ⟨by decide, by decide, by decide,
    tokenize_input_splits_on_space (List.replicate ARG_LENGTH none)
      ['l', 's', ' ', '-', 'l', '\n'] (by decide) (by decide)⟩

/-- C18 fails as stated: the line `ls`, tab, `-l` is one token, with the tab
in it, not the two tokens `ls` and `-l`. -/
theorem tokenize_input_keeps_tab :
    tokenize_input (List.replicate ARG_LENGTH none) ['l', 's', '\t', '-', 'l', '\n']
      = .ok ([some ['l', 's', '\t', '-', 'l'], none, none, none, none, none, none, none,
              none, none], 1)
    ∧ '\t' ∈ ['l', 's', '\t', '-', 'l'] := by
  decide

/-! ## Claims on the interactive loop -/

/-- One round of the interactive loop on a line whose tokens fit the array: the
dispatch of the tokenized array, behind the `>` the round prints first. -/
theorem interactive_step_eq (args : List Slot) (arguments : List Argument) (s_index : Nat)
    (input : List Char) (hne : input ≠ [])
    (hfit : (space_runs (chomp input)).length + 2 ≤ args.length) :
    interactive_step args arguments s_index input
      = dispatch (tokenized args input) (space_runs (chomp input)).length arguments s_index
          >>= fun d => .ok { d with printed := ">" :: d.printed } := by
  unfold interactive_step
  rw [tokenize_input_eq args input hne hfit]
  rfl

theorem dispatch_set_alone (rest : List Slot) (arguments : List Argument) (s_index : Nat) :
    dispatch (argv_array [SET] rest) 1 arguments s_index
      = .ok { args := argv_array [SET] rest, arguments := arguments, s_index := s_index,
              printed := [USAGE_HINT], executed := none } := by
  simp [dispatch, argv_array, load, bind, Except.bind]

theorem dispatch_blank (rest : List Slot) (arguments : List Argument) (s_index : Nat) :
    dispatch (argv_array [] rest) 0 arguments s_index
      = .ok { args := argv_array [] rest, arguments := arguments, s_index := s_index,
              printed := [], executed := none } := by
  simp [dispatch, argv_array, load, bind, Except.bind]

/-- C11, as the code has it. In a round of the interactive loop on a line with
at least one token, the first of which is not `set`, the shell substitutes in
the whole tokenized array and then invokes the executor once, on the resulting
sequence, unless the first token of that sequence now reads `set`, in which
case it invokes nothing; it prints only its `>` and leaves the table as it
was. -/
theorem interactive_step_substitutes_then_executes (args : List Slot)
    (arguments : List Argument) (s_index : Nat) (input : List Char) (t0 : Token)
    (ts : List Token) (hne : input ≠ []) (htoks : space_runs (chomp input) = t0 :: ts)
    (hnot : t0 ≠ SET) (hfit : (t0 :: ts).length + 2 ≤ args.length)
    (hcap : s_index ≤ arguments.length) :
    ∃ args1 args2 argv,
      tokenize_input args input = .ok (args1, (t0 :: ts).length)
      ∧ process_variable_replacement args1 (t0 :: ts).length arguments s_index = .ok args2
      ∧ argv_of args2 = .ok argv
      ∧ interactive_step args arguments s_index input
          = .ok { args := args2, arguments := arguments, s_index := s_index, printed := [">"],
                  executed := if argv.head? = some SET then none else some argv } := by
  have hfit' : (space_runs (chomp input)).length + 2 ≤ args.length := by rw [htoks]; exact hfit
  have htok := tokenize_input_eq args input hne hfit'
  have hstep := interactive_step_eq args arguments s_index input hne hfit'
  have hrep := process_variable_replacement_eq (t0 :: ts)
    (none :: args.drop ((t0 :: ts).length + 2)) arguments s_index hcap
  rw [if_neg (by simpa using hnot)] at hrep
  have hdis := dispatch_not_set t0 ts (none :: args.drop ((t0 :: ts).length + 2))
    arguments s_index hcap hnot
  simp only [tokenized] at hstep
  rw [htoks] at htok hstep
  refine ⟨_, _, _, htok, hrep, argv_of_argv_array _ _, ?_⟩
  rw [hstep, hdis]
  simp only [bind, Except.bind, List.map_cons, List.head?_cons, Option.some.injEq]
  by_cases h : resolve arguments s_index t0 = SET
  · simp [h]
  · simp [h]

/-- Witness of the amended C11 on the line `$a hello` with `$a` bound to `echo`. -/
theorem interactive_step_substitutes_then_executes_witness :
    (space_runs (chomp ['$', 'a', ' ', 'h', 'e', 'l', 'l', 'o', '\n'])
      = ['$', 'a'] :: [['h', 'e', 'l', 'l', 'o']]) ∧
    (interactive_step (List.replicate ARG_LENGTH none)
        [Argument.mk ['$', 'a'] ['e', 'c', 'h', 'o']] 1
        ['$', 'a', ' ', 'h', 'e', 'l', 'l', 'o', '\n']).map (fun d => d.executed)
      = .ok (some [['e', 'c', 'h', 'o'], ['h', 'e', 'l', 'l', 'o']]) ∧
    ∃ args1 args2 argv,
      tokenize_input (List.replicate ARG_LENGTH none)
          ['$', 'a', ' ', 'h', 'e', 'l', 'l', 'o', '\n']
        = .ok (args1, (['$', 'a'] :: [['h', 'e', 'l', 'l', 'o']]).length)
      ∧ process_variable_replacement args1 (['$', 'a'] :: [['h', 'e', 'l', 'l', 'o']]).length
          [Argument.mk ['$', 'a'] ['e', 'c', 'h', 'o']] 1 = .ok args2
      ∧ argv_of args2 = .ok argv
      ∧ interactive_step (List.replicate ARG_LENGTH none)
          [Argument.mk ['$', 'a'] ['e', 'c', 'h', 'o']] 1
          ['$', 'a', ' ', 'h', 'e', 'l', 'l', 'o', '\n']
          = .ok { args := args2, arguments := [Argument.mk ['$', 'a'] ['e', 'c', 'h', 'o']],
                  s_index := 1, printed := [">"],
                  executed := if argv.head? = some SET then none else some argv } :=
  ⟨by decide, by decide,
    interactive_step_substitutes_then_executes (List.replicate ARG_LENGTH none)
      [Argument.mk ['$', 'a'] ['e', 'c', 'h', 'o']] 1
      ['$', 'a', ' ', 'h', 'e', 'l', 'l', 'o', '\n'] ['$', 'a'] [['h', 'e', 'l', 'l', 'o']]
      (by decide) (by decide) (by decide) (by decide) (by decide)⟩

/-- C11 fails as stated: with `$s` bound to `set` (as `set $s=set` leaves it),
the line `$s now`, whose first token is not `set`, is substituted to `set now`
and the executor is not invoked. -/
theorem interactive_step_skips_executor_on_set_value :
    process_set_command (argv_array [SET, ['$', 's', '=', 's', 'e', 't']] [])
        [Argument.mk [] []] 0
      = .ok ([Argument.mk ['$', 's'] SET], 1, [])
    ∧ space_runs (chomp ['$', 's', ' ', 'n', 'o', 'w', '\n']) = [['$', 's'], ['n', 'o', 'w']]
    ∧ interactive_step (List.replicate ARG_LENGTH none) [Argument.mk ['$', 's'] SET] 1
        ['$', 's', ' ', 'n', 'o', 'w', '\n']
      = .ok { args := [some SET, some ['n', 'o', 'w'], none, none, none, none, none, none,
                       none, none],
              arguments := [Argument.mk ['$', 's'] SET], s_index := 1, printed := [">"],
              executed := none } := by
  decide

/-- C16. In a round of the interactive loop on a line whose only token is
`set`, the shell prints its `>` and the usage hint and does nothing else: the
token array is as `tokenize_input` left it, the table and its size are as they
were, no notice of an invalid command is printed and the executor is not
invoked. -/
theorem interactive_step_set_alone (args : List Slot) (arguments : List Argument)
    (s_index : Nat) (input : List Char) (hne : input ≠ [])
    (htoks : space_runs (chomp input) = [SET]) (hfit : 3 ≤ args.length) :
    ∃ args1, tokenize_input args input = .ok (args1, 1)
      ∧ interactive_step args arguments s_index input
          = .ok { args := args1, arguments := arguments, s_index := s_index,
                  printed := [">", USAGE_HINT], executed := none } := by
  have hfit' : (space_runs (chomp input)).length + 2 ≤ args.length := by rw [htoks]; exact hfit
  have htok := tokenize_input_eq args input hne hfit'
  have hstep := interactive_step_eq args arguments s_index input hne hfit'
  simp only [tokenized] at hstep
  rw [htoks] at htok hstep
  refine ⟨_, htok, ?_⟩
  rw [hstep]
  simp only [List.length_singleton]
  rw [dispatch_set_alone]
  rfl

/-- Witness of C16 on the line `set` with its newline. -/
theorem interactive_step_set_alone_witness :
    (['s', 'e', 't', '\n'] ≠ []) ∧ (space_runs (chomp ['s', 'e', 't', '\n']) = [SET]) ∧
    (3 ≤ (List.replicate ARG_LENGTH (none : Slot)).length) ∧
    ∃ args1, tokenize_input (List.replicate ARG_LENGTH none) ['s', 'e', 't', '\n']
        = .ok (args1, 1)
      ∧ interactive_step (List.replicate ARG_LENGTH none) [Argument.mk ['$', 'a'] ['b']] 1
          ['s', 'e', 't', '\n']
          = .ok { args := args1, arguments := [Argument.mk ['$', 'a'] ['b']], s_index := 1,
                  printed := [">", USAGE_HINT], executed := none } :=
  ⟨by decide, by decide, by decide,
    interactive_step_set_alone (List.replicate ARG_LENGTH none) [Argument.mk ['$', 'a'] ['b']] 1
      ['s', 'e', 't', '\n'] (by decide) (by decide) (by decide)⟩

/-- C20. A blank line is a no-op. On a non-empty line of spaces only, with or
without a trailing newline, `tokenize_input` returns 0 and leaves `NULL` in
slot 0; the round of the interactive loop prints its `>` and nothing else, no
usage hint and no notice, leaves the table and its size as they were, rewrites
no slot and does not invoke the executor. -/
theorem interactive_step_blank_line (args : List Slot) (arguments : List Argument)
    (s_index : Nat) (input : List Char) (hne : input ≠ [])
    (hblank : ∀ c ∈ chomp input, c = ' ') (hfit : 2 ≤ args.length) :
    ∃ args1, tokenize_input args input = .ok (args1, 0)
      ∧ args1[0]? = some none
      ∧ interactive_step args arguments s_index input
          = .ok { args := args1, arguments := arguments, s_index := s_index,
                  printed := [">"], executed := none } := by
  have hruns := space_runs_all_spaces (chomp input) hblank
  have hfit' : (space_runs (chomp input)).length + 2 ≤ args.length := by
    rw [hruns]; exact hfit
  have htok := tokenize_input_eq args input hne hfit'
  have hstep := interactive_step_eq args arguments s_index input hne hfit'
  simp only [tokenized] at hstep
  rw [hruns] at htok hstep
  refine ⟨_, htok, by simp, ?_⟩
  rw [hstep]
  simp only [List.length_nil]
  rw [dispatch_blank]
  rfl

/-- Witness of C20 on the line of three spaces and a newline. -/
theorem interactive_step_blank_line_witness :
    ([' ', ' ', ' ', '\n'] ≠ []) ∧ (∀ c ∈ chomp [' ', ' ', ' ', '\n'], c = ' ') ∧
    (2 ≤ (List.replicate ARG_LENGTH (some ['J'])).length) ∧
    ∃ args1, tokenize_input (List.replicate ARG_LENGTH (some ['J'])) [' ', ' ', ' ', '\n']
        = .ok (args1, 0)
      ∧ args1[0]? = some none
      ∧ interactive_step (List.replicate ARG_LENGTH (some ['J']))
          [Argument.mk ['$', 'a'] ['b']] 1 [' ', ' ', ' ', '\n']
          = .ok { args := args1, arguments := [Argument.mk ['$', 'a'] ['b']], s_index := 1,
                  printed := [">"], executed := none } :=
  ⟨by decide, by decide, by decide,
    interactive_step_blank_line (List.replicate ARG_LENGTH (some ['J']))
      [Argument.mk ['$', 'a'] ['b']] 1 [' ', ' ', ' ', '\n'] (by decide) (by decide) (by decide)⟩

/-! ## Auxiliary facts: the preload of main -/

theorem tokenized_length (args : List Slot) (l : List Char)
    (hfit : (space_runs (chomp l)).length + 2 ≤ args.length) :
    (tokenized args l).length = args.length := by
  simp only [tokenized, argv_array, List.length_append, List.length_map, List.length_cons,
    List.length_drop]
  omega

theorem foldl_tokenized_length (lines : List (List Char)) : ∀ (args : List Slot),
    (∀ l ∈ lines, (space_runs (chomp l)).length + 2 ≤ args.length) →
    (lines.foldl tokenized args).length = args.length := by
  induction lines with
  | nil => intro args _; rfl
  | cons l more ih =>
    intro args h
    have hl := tokenized_length args l (h l (by simp))
    simp only [List.foldl_cons]
    rw [ih (tokenized args l) (fun l' hl' => by rw [hl]; exact h l' (by simp [hl'])), hl]

theorem write_at_nil (arguments : List Argument) (s : Nat) :
    write_at arguments s [] = arguments := by
  simp [write_at]

theorem write_at_cons (arguments : List Argument) (s : Nat) (b : Argument)
    (bs : List Argument) (hs : s < arguments.length) :
    write_at (arguments.set s b) (s + 1) bs = write_at arguments s (b :: bs) := by
  simp only [write_at, List.length_cons]
  rw [take_set_succ arguments s b hs, drop_set_succ arguments s _ b (by omega)]
  have : s + 1 + bs.length = s + (bs.length + 1) := by omega
  rw [this]
  simp

theorem write_at_take (arguments : List Argument) (bs : List Argument) :
    (write_at arguments 0 bs).take bs.length = bs := by
  simp [write_at]

/-- What `process_set_command` makes of a tokenized line shorter than 50
characters: it stores the binding the line stands for, or rejects the line. -/
theorem process_set_command_line (args : List Slot) (l : List Char)
    (arguments : List Argument) (s_index : Nat) (hlen : l.length < MAX_LENGTH) :
    process_set_command (tokenized args l) arguments s_index
      = match line_binding l with
        | some b => store arguments s_index b >>= fun a => .ok (a, s_index + 1, [])
        | none => .ok (arguments, s_index, [INVALID_NOTICE]) := by
  have htoks : ∀ t ∈ space_runs (chomp l), t.length < MAX_LENGTH := by
    intro t ht
    have h1 := (space_runs_mem (chomp l) t ht).2.2
    have h2 := chomp_length l
    omega
  unfold tokenized line_binding
  revert htoks
  generalize space_runs (chomp l) = toks
  intro htoks
  match toks, htoks with
  | [], _ => exact process_set_command_arity [] _ arguments s_index (by simp)
  | [t], _ => exact process_set_command_arity [t] _ arguments s_index (by simp)
  | [t0, t1], htoks =>
    rw [process_set_command_two, set_two_tokens_eq t0 t1 arguments s_index
      (htoks t1 (by simp))]
    simp only
    by_cases h : t0 = SET ∧ t1.head? = some '$' ∧ '=' ∈ t1
    · rw [if_pos h, if_pos h]
    · rw [if_neg h, if_neg h]
  | a :: b :: c :: r, _ =>
    exact process_set_command_arity (a :: b :: c :: r) _ arguments s_index (by simp)

/-- Nothing but `printf` happens while the init file is read. -/
theorem preload_loop_prints (lines : List (List Char)) : ∀ (st st1 : MainState)
    (events : List Event), preload_loop lines st = .ok (st1, events) → execs events = [] := by
  induction lines with
  | nil =>
    intro st st1 events h
    simp only [preload_loop] at h
    rw [← (Prod.mk.inj (Except.ok.inj h)).2]
    rfl
  | cons l more ih =>
    intro st st1 events h
    rw [preload_loop] at h
    obtain ⟨r, _, h⟩ := bind_eq_ok _ _ _ h
    obtain ⟨q, _, h⟩ := bind_eq_ok _ _ _ h
    obtain ⟨z, hz, h⟩ := bind_eq_ok _ _ _ h
    have hz' := ih _ z.1 z.2 hz
    rw [← (Prod.mk.inj (Except.ok.inj h)).2]
    simp only [execs, List.filterMap_cons, List.filterMap_append, List.filterMap_map] at hz' ⊢
    rw [hz']
    simp [List.filterMap_eq_nil_iff]

/-- The loop that reads the init file is the fold of `preload_step` over its lines. -/
theorem preload_loop_fold (lines : List (List Char)) : ∀ (st : MainState),
    (preload_loop lines st).map Prod.fst = lines.foldlM preload_step st := by
  induction lines with
  | nil => intro st; rfl
  | cons l more ih =>
    intro st
    rw [preload_loop, List.foldlM_cons, preload_step]
    cases tokenize_input st.args l with
    | error e => rfl
    | ok r =>
      simp only [bind, Except.bind]
      cases process_set_command r.1 st.arguments st.s_index with
      | error e => rfl
      | ok q =>
        simp only
        rw [← ih]
        cases preload_loop more { args := r.1, arguments := q.1, s_index := q.2.1 } with
        | error e => rfl
        | ok z => rfl

/-- The closed form of the loop that reads the init file: the token array is
the one the lines were tokenized into, one after the other, and the table has
the bindings of the valid lines behind the entries it had. -/
theorem preload_loop_eq (lines : List (List Char)) : ∀ (st : MainState),
    (∀ l ∈ lines, l ≠ [] ∧ l.length < MAX_LENGTH
      ∧ (space_runs (chomp l)).length + 2 ≤ st.args.length) →
    st.s_index + (bindings_of lines).length ≤ st.arguments.length →
    ∃ events, preload_loop lines st
      = .ok ({ args := lines.foldl tokenized st.args
               arguments := write_at st.arguments st.s_index (bindings_of lines)
               s_index := st.s_index + (bindings_of lines).length }, events) := by
  induction lines with
  | nil =>
    intro st _ _
    refine ⟨[], ?_⟩
    simp [preload_loop, bindings_of, write_at_nil]
  | cons l more ih =>
    intro st hlines hroom
    obtain ⟨hne, hlen, hfit⟩ := hlines l (by simp)
    have htl := tokenized_length st.args l hfit
    have hmore : ∀ l' ∈ more, l' ≠ [] ∧ l'.length < MAX_LENGTH
        ∧ (space_runs (chomp l')).length + 2 ≤ (tokenized st.args l).length := by
      intro l' hl'
      rw [htl]
      exact hlines l' (by simp [hl'])
    have htok : tokenize_input st.args l
        = .ok (tokenized st.args l, (space_runs (chomp l)).length) :=
      tokenize_input_eq st.args l hne hfit
    have hset := process_set_command_line st.args l st.arguments st.s_index hlen
    rw [preload_loop, htok]
    simp only [bind, Except.bind]
    cases hb : line_binding l with
    | none =>
      rw [hb] at hset
      have hbs : bindings_of (l :: more) = bindings_of more := by
        simp [bindings_of, List.filterMap_cons, hb]
      rw [hbs] at hroom ⊢
      obtain ⟨ev, hev⟩ := ih (MainState.mk (tokenized st.args l) st.arguments st.s_index)
        hmore hroom
      rw [hset]
      simp only
      rw [hev]
      exact ⟨_, rfl⟩
    | some b =>
      rw [hb] at hset
      have hbs : bindings_of (l :: more) = b :: bindings_of more := by
        simp [bindings_of, List.filterMap_cons, hb]
      rw [hbs] at hroom ⊢
      simp only [List.length_cons] at hroom
      have hs : st.s_index < st.arguments.length := by omega
      simp only [store_ok _ _ _ hs, bind, Except.bind] at hset
      obtain ⟨ev, hev⟩ := ih (MainState.mk (tokenized st.args l)
        (st.arguments.set st.s_index b) (st.s_index + 1)) hmore
        (by simp only [List.length_set]; omega)
      rw [hset]
      simp only [bind, Except.bind]
      rw [hev]
      simp only [write_at_cons st.arguments st.s_index b _ hs, List.length_cons,
        List.foldl_cons]
      have : st.s_index + 1 + (bindings_of more).length
          = st.s_index + ((bindings_of more).length + 1) := by omega
      rw [this]
      exact ⟨_, rfl⟩

/-- The closed form of the loop of lines 318-327: one call of the executor for
each of the `n` entries from `i` on, on the one-token command of its value. -/
theorem execute_loop_eq (arguments : List Argument) (n : Nat) : ∀ (i : Nat) (args : List Slot),
    i + n ≤ arguments.length → (0 < n → 2 ≤ args.length) →
    ∃ args2 running, execute_loop arguments n i args = .ok (args2, running)
      ∧ execs running = ((arguments.drop i).take n).map (fun b => [b.var_value])
      ∧ args2.length = args.length := by
  induction n with
  | zero =>
    intro i args _ _
    exact ⟨args, [], rfl, by simp [execs], rfl⟩
  | succ n ih =>
    intro i args hi hargs
    have hlt : i < arguments.length := by omega
    have hget : arguments[i]? = some arguments[i] := List.getElem?_eq_getElem hlt
    match args, hargs (Nat.succ_pos n) with
    | a :: b :: rest, _ =>
      obtain ⟨args2, running, h1, h2, h3⟩ := ih (i + 1)
        (some arguments[i].var_value :: none :: rest) (by omega) (fun _ => by simp)
      refine ⟨args2, Event.print ("\n\nexecuted command: " ++ String.mk arguments[i].var_name
          ++ "\n") :: Event.exec [arguments[i].var_value] :: running, ?_, ?_, ?_⟩
      · rw [execute_loop, load_ok arguments i _ hget]
        simp [bind, Except.bind, store, fork_off, argv_of, h1]
      · simp only [execs, List.filterMap_cons] at h2 ⊢
        rw [h2, List.drop_eq_getElem_cons hlt, List.take_succ_cons, List.map_cons]
      · rw [h3]; simp

theorem write_at_length (arguments : List Argument) (bs : List Argument)
    (h : bs.length ≤ arguments.length) : (write_at arguments 0 bs).length = arguments.length := by
  simp only [write_at, List.take_zero, List.nil_append, List.length_append, List.length_drop,
    Nat.zero_add]
  omega

theorem line_binding_blank (l : List Char) (h : ∀ c ∈ chomp l, c = ' ') :
    line_binding l = none := by
  simp [line_binding, space_runs_all_spaces (chomp l) h]

/-! ## Claims on the preload of main -/

/-- C12. Preload dual-effect. For init lines that fit the buffers and a table
with room for their bindings, the loop that reads the file ends with the
bindings of the valid lines in the table, in file order, and has invoked
nothing; the loop behind it then invokes the executor once for each binding of
that table, in table order, on the one-token command of its value; and in the
events of `main` all of this stands before the events of the interactive loop. -/
theorem preload_executes_each_value (lines stdin_lines : List (List Char)) (args : List Slot)
    (arguments : List Argument)
    (hlines : ∀ l ∈ lines, l ≠ [] ∧ l.length < MAX_LENGTH
      ∧ (space_runs (chomp l)).length + 2 ≤ args.length)
    (hroom : (bindings_of lines).length ≤ arguments.length) :
    ∃ st reading args2 running,
      preload_loop lines { args := args, arguments := arguments, s_index := 0 }
        = .ok (st, reading)
      ∧ st.arguments.take st.s_index = bindings_of lines
      ∧ execs reading = []
      ∧ execute_loop st.arguments st.s_index 0 st.args = .ok (args2, running)
      ∧ execs running = (st.arguments.take st.s_index).map (fun b => [b.var_value])
      ∧ main_run (some lines) stdin_lines args arguments
          = interactive_loop stdin_lines
              { args := args2, arguments := st.arguments, s_index := st.s_index } >>= fun z =>
            .ok (0, Event.print PROCESSING_BANNER :: (reading ++ running ++
                     Event.print COMPLETED_BANNER :: Event.print "\n>" :: z.2)) := by
  obtain ⟨reading, hread⟩ := preload_loop_eq lines (MainState.mk args arguments 0) hlines
    (by simpa using hroom)
  simp only [Nat.zero_add] at hread
  have hlen := write_at_length arguments (bindings_of lines) hroom
  have hargs : 0 < (bindings_of lines).length → 2 ≤ (lines.foldl tokenized args).length := by
    intro hpos
    rw [foldl_tokenized_length lines args (fun l hl => (hlines l hl).2.2)]
    cases lines with
    | nil => simp [bindings_of] at hpos
    | cons l more =>
      have := (hlines l (by simp)).2.2
      omega
  obtain ⟨args2, running, hrun, hex, _⟩ := execute_loop_eq
    (write_at arguments 0 (bindings_of lines)) (bindings_of lines).length 0
    (lines.foldl tokenized args) (by rw [hlen]; omega) hargs
  refine ⟨_, reading, args2, running, hread, write_at_take _ _,
    preload_loop_prints lines _ _ _ hread, hrun, ?_, ?_⟩
  · rw [hex]; simp
  · simp only [main_run, hread, hrun, bind, Except.bind]

/-- Witness of C12: the init lines `set $x=true` and `set $y=false`, the arrays
of `main`, no interactive line. The table is `$x`, `true` and `$y`, `false`, and
the executor gets `true`, then `false`. -/
theorem preload_executes_each_value_witness :
    (bindings_of [['s', 'e', 't', ' ', '$', 'x', '=', 't', 'r', 'u', 'e', '\n'],
        ['s', 'e', 't', ' ', '$', 'y', '=', 'f', 'a', 'l', 's', 'e', '\n']]
      = [Argument.mk ['$', 'x'] ['t', 'r', 'u', 'e'],
         Argument.mk ['$', 'y'] ['f', 'a', 'l', 's', 'e']]) ∧
    ((main_run (some [['s', 'e', 't', ' ', '$', 'x', '=', 't', 'r', 'u', 'e', '\n'],
        ['s', 'e', 't', ' ', '$', 'y', '=', 'f', 'a', 'l', 's', 'e', '\n']]) []
        (List.replicate ARG_LENGTH none) (List.replicate MAX_LENGTH (Argument.mk [] []))).map
        (fun r => execs r.2)
      = .ok [[['t', 'r', 'u', 'e']], [['f', 'a', 'l', 's', 'e']]]) ∧
    ∃ st reading args2 running,
      preload_loop [['s', 'e', 't', ' ', '$', 'x', '=', 't', 'r', 'u', 'e', '\n'],
          ['s', 'e', 't', ' ', '$', 'y', '=', 'f', 'a', 'l', 's', 'e', '\n']]
          { args := List.replicate ARG_LENGTH none,
            arguments := List.replicate MAX_LENGTH (Argument.mk [] []), s_index := 0 }
        = .ok (st, reading)
      ∧ st.arguments.take st.s_index
          = bindings_of [['s', 'e', 't', ' ', '$', 'x', '=', 't', 'r', 'u', 'e', '\n'],
              ['s', 'e', 't', ' ', '$', 'y', '=', 'f', 'a', 'l', 's', 'e', '\n']]
      ∧ execs reading = []
      ∧ execute_loop st.arguments st.s_index 0 st.args = .ok (args2, running)
      ∧ execs running = (st.arguments.take st.s_index).map (fun b => [b.var_value])
      ∧ main_run (some [['s', 'e', 't', ' ', '$', 'x', '=', 't', 'r', 'u', 'e', '\n'],
            ['s', 'e', 't', ' ', '$', 'y', '=', 'f', 'a', 'l', 's', 'e', '\n']]) []
            (List.replicate ARG_LENGTH none) (List.replicate MAX_LENGTH (Argument.mk [] []))
          = interactive_loop []
              { args := args2, arguments := st.arguments, s_index := st.s_index } >>= fun z =>
            .ok (0, Event.print PROCESSING_BANNER :: (reading ++ running ++
                     Event.print COMPLETED_BANNER :: Event.print "\n>" :: z.2)) :=
  ⟨by decide, by decide,
    preload_executes_each_value
      [['s', 'e', 't', ' ', '$', 'x', '=', 't', 'r', 'u', 'e', '\n'],
       ['s', 'e', 't', ' ', '$', 'y', '=', 'f', 'a', 'l', 's', 'e', '\n']] []
      (List.replicate ARG_LENGTH none) (List.replicate MAX_LENGTH (Argument.mk [] []))
      (by decide) (by decide)⟩

/-- C13. The preload never abandons the init file. For init lines that fit the
buffers and a table with room for their bindings, the loop that reads the file
ends, and ends where the fold of "tokenize the line, then hand it to
`process_set_command`" over the lines ends, from the empty table: the table
holds the bindings of the valid `set` lines, in file order, and no more; a line
that is blank or otherwise no valid `set` line adds nothing to them and takes
nothing from the lines behind it; the token array is the one the lines were
tokenized into, none of its tokens substituted; and nothing was executed. -/
theorem preload_reads_every_line (lines : List (List Char)) (args : List Slot)
    (arguments : List Argument)
    (hlines : ∀ l ∈ lines, l ≠ [] ∧ l.length < MAX_LENGTH
      ∧ (space_runs (chomp l)).length + 2 ≤ args.length)
    (hroom : (bindings_of lines).length ≤ arguments.length) :
    ∃ st reading,
      preload_loop lines { args := args, arguments := arguments, s_index := 0 }
        = .ok (st, reading)
      ∧ lines.foldlM preload_step { args := args, arguments := arguments, s_index := 0 }
        = .ok st
      ∧ st.s_index = (bindings_of lines).length
      ∧ st.arguments.take st.s_index = bindings_of lines
      ∧ st.arguments.drop st.s_index = arguments.drop st.s_index
      ∧ (∀ pre l post, lines = pre ++ l :: post → line_binding l = none →
          bindings_of lines = bindings_of pre ++ bindings_of post)
      ∧ (∀ l, (∀ c ∈ chomp l, c = ' ') → line_binding l = none)
      ∧ st.args = lines.foldl tokenized args
      ∧ execs reading = [] := by
  obtain ⟨reading, hread⟩ := preload_loop_eq lines (MainState.mk args arguments 0) hlines
    (by simpa using hroom)
  simp only [Nat.zero_add] at hread
  have hfold := preload_loop_fold lines (MainState.mk args arguments 0)
  rw [hread] at hfold
  refine ⟨_, reading, hread, hfold.symm, rfl, write_at_take _ _, ?_, ?_, line_binding_blank,
    rfl, preload_loop_prints lines _ _ _ hread⟩
  · simp [write_at]
  · intro pre l post hsplit hnone
    rw [hsplit]
    simp [bindings_of, List.filterMap_append, List.filterMap_cons, hnone]

/-- Witness of C13: a valid line, a blank line, the invalid `set $` and a
second valid line; both valid lines are bound, in file order. -/
theorem preload_reads_every_line_witness :
    (bindings_of [['s', 'e', 't', ' ', '$', 'x', '=', 't', 'r', 'u', 'e', '\n'], ['\n'],
        ['s', 'e', 't', ' ', '$', '\n'],
        ['s', 'e', 't', ' ', '$', 'y', '=', 'f', 'a', 'l', 's', 'e', '\n']]
      = [Argument.mk ['$', 'x'] ['t', 'r', 'u', 'e'],
         Argument.mk ['$', 'y'] ['f', 'a', 'l', 's', 'e']]) ∧
    ∃ st reading,
      preload_loop [['s', 'e', 't', ' ', '$', 'x', '=', 't', 'r', 'u', 'e', '\n'], ['\n'],
          ['s', 'e', 't', ' ', '$', '\n'],
          ['s', 'e', 't', ' ', '$', 'y', '=', 'f', 'a', 'l', 's', 'e', '\n']]
          { args := List.replicate ARG_LENGTH none,
            arguments := List.replicate MAX_LENGTH (Argument.mk [] []), s_index := 0 }
        = .ok (st, reading)
      ∧ [['s', 'e', 't', ' ', '$', 'x', '=', 't', 'r', 'u', 'e', '\n'], ['\n'],
          ['s', 'e', 't', ' ', '$', '\n'],
          ['s', 'e', 't', ' ', '$', 'y', '=', 'f', 'a', 'l', 's', 'e', '\n']].foldlM
          preload_step
          { args := List.replicate ARG_LENGTH none,
            arguments := List.replicate MAX_LENGTH (Argument.mk [] []), s_index := 0 }
        = .ok st
      ∧ st.s_index
          = (bindings_of [['s', 'e', 't', ' ', '$', 'x', '=', 't', 'r', 'u', 'e', '\n'], ['\n'],
              ['s', 'e', 't', ' ', '$', '\n'],
              ['s', 'e', 't', ' ', '$', 'y', '=', 'f', 'a', 'l', 's', 'e', '\n']]).length
      ∧ st.arguments.take st.s_index
          = bindings_of [['s', 'e', 't', ' ', '$', 'x', '=', 't', 'r', 'u', 'e', '\n'], ['\n'],
              ['s', 'e', 't', ' ', '$', '\n'],
              ['s', 'e', 't', ' ', '$', 'y', '=', 'f', 'a', 'l', 's', 'e', '\n']]
      ∧ st.arguments.drop st.s_index
          = (List.replicate MAX_LENGTH (Argument.mk [] [])).drop st.s_index
      ∧ (∀ pre l post,
          [['s', 'e', 't', ' ', '$', 'x', '=', 't', 'r', 'u', 'e', '\n'], ['\n'],
            ['s', 'e', 't', ' ', '$', '\n'],
            ['s', 'e', 't', ' ', '$', 'y', '=', 'f', 'a', 'l', 's', 'e', '\n']]
            = pre ++ l :: post → line_binding l = none →
          bindings_of [['s', 'e', 't', ' ', '$', 'x', '=', 't', 'r', 'u', 'e', '\n'], ['\n'],
            ['s', 'e', 't', ' ', '$', '\n'],
            ['s', 'e', 't', ' ', '$', 'y', '=', 'f', 'a', 'l', 's', 'e', '\n']]
            = bindings_of pre ++ bindings_of post)
      ∧ (∀ l, (∀ c ∈ chomp l, c = ' ') → line_binding l = none)
      ∧ st.args
          = [['s', 'e', 't', ' ', '$', 'x', '=', 't', 'r', 'u', 'e', '\n'], ['\n'],
              ['s', 'e', 't', ' ', '$', '\n'],
              ['s', 'e', 't', ' ', '$', 'y', '=', 'f', 'a', 'l', 's', 'e', '\n']].foldl
              tokenized (List.replicate ARG_LENGTH none)
      ∧ execs reading = [] :=
  ⟨by decide,
    preload_reads_every_line
      [['s', 'e', 't', ' ', '$', 'x', '=', 't', 'r', 'u', 'e', '\n'], ['\n'],
        ['s', 'e', 't', ' ', '$', '\n'],
        ['s', 'e', 't', ' ', '$', 'y', '=', 'f', 'a', 'l', 's', 'e', '\n']]
      (List.replicate ARG_LENGTH none) (List.replicate MAX_LENGTH (Argument.mk [] []))
      (by decide) (by decide)⟩

end Shell
